import Mathlib

/-!
# Waypoint constraint model and segment-time estimators

Shallow embedding of `trajectory_generation/src/vertex.cpp`.

* `double` is idealised as an element of a linearly ordered field `K`
  (the theorems take `K = ℝ`); rounding, infinities and NaN are not modelled.
* `std::sqrt` is a parameter `sqrt : K → K` of every definition that needs it
  (the theorems take `Real.sqrt`).
* `Eigen::VectorXd` is a `List K`.  Eigen asserts equal sizes in `a - b` and in
  `a.dot(b)`; a failed assertion, like a failed glog `CHECK`, aborts the program
  and is modelled by `none`.
* `std::map<int, VectorXd>` is an association list.
-/

set_option linter.unusedSectionVars false
set_option linter.unusedVariables false

namespace MavTrajectoryGeneration

variable {K : Type} [LinearOrderedField K]

/-! ## Eigen vectors -/

/-- Eigen `a - b` on dynamic vectors: component-wise, sizes asserted equal. -/
def vsub (a b : List K) : Option (List K) :=
  if a.length = b.length then some (List.zipWith (fun x y => x - y) a b) else none

/-- Eigen `squaredNorm()`: the sum of the squared components. -/
def squaredNorm (v : List K) : K :=
  (v.map (fun x => x * x)).sum

/-- Eigen `norm()`: the square root of `squaredNorm()`. -/
def norm (sqrt : K → K) (v : List K) : K :=
  sqrt (squaredNorm v)

/-- Eigen `normalize()`: divides by the norm when the squared norm is positive and
leaves the vector unchanged otherwise. -/
def normalize (sqrt : K → K) (v : List K) : List K :=
  let z := squaredNorm v
  if 0 < z then v.map (fun x => x / sqrt z) else v

/-- Eigen `a.dot(b)`: sum of component products, sizes asserted equal. -/
def dot (a b : List K) : Option K :=
  if a.length = b.length then some (List.zipWith (fun x y => x * y) a b).sum else none

/-! ## Vertex -/

/-- The constant `derivative_order::POSITION`. -/
def POSITION : Int := 0

/-- A waypoint: the dimension `D_` and the map `constraints_` from derivative order to
constraint value. -/
structure Vertex (K : Type) where
  D : Nat
  constraints : List (Int × List K)

/-- The method `Vertex::getConstraint`: `some value` when the order is constrained (the
`true` return, with `*value` assigned), `none` otherwise (the `false` return, `*value`
untouched). -/
def Vertex.getConstraint (v : Vertex K) (derivative_order : Int) : Option (List K) :=
  v.constraints.lookup derivative_order

/-- The method `Vertex::hasConstraint`. -/
def Vertex.hasConstraint (v : Vertex K) (derivative_order : Int) : Bool :=
  (v.constraints.lookup derivative_order).isSome

/-- The statement pair `Eigen::VectorXd x; v.getConstraint(POSITION, &x);` of the
estimators: the returned flag is dropped, so `x` stays the default-constructed empty
vector when the vertex has no position constraint. -/
def Vertex.positionOrEmpty (v : Vertex K) : List K :=
  (v.getConstraint POSITION).getD []

/-- The assignment `constraints_[derivative_order] = constraint` on the ordered map:
overwrite an existing key, otherwise insert keeping the keys ascending. -/
def mapAssign (derivative_order : Int) (constraint : List K) :
    List (Int × List K) → List (Int × List K)
  | [] => [(derivative_order, constraint)]
  | (k, c) :: rest =>
    if derivative_order < k then (derivative_order, constraint) :: (k, c) :: rest
    else if derivative_order = k then (derivative_order, constraint) :: rest
    else (k, c) :: mapAssign derivative_order constraint rest

/-- The constructor `Vertex(dimension)`: no constraints. -/
def Vertex.new (dimension : Nat) : Vertex K :=
  ⟨dimension, []⟩

/-- The method `Vertex::addConstraint` (lines 132-135): `CHECK_EQ` on the length, then
the map assignment. -/
def Vertex.addConstraint (v : Vertex K) (derivative_order : Int) (constraint : List K) :
    Option (Vertex K) :=
  if constraint.length = v.D then
    some ⟨v.D, mapAssign derivative_order constraint v.constraints⟩
  else none

/-! ## Segment-time estimators -/

/-- The loop `for (i = 0; i < n; ++i) { ...; segment_times.push_back(t); }` over an
initially empty `segment_times`; `body i` is the value pushed in iteration `i`, or `none`
when the iteration aborts. -/
def pushLoop (body : Nat → Option K) : Nat → Option (List K)
  | 0 => some []
  | n + 1 => do
    let segment_times ← pushLoop body n
    let t ← body n
    pure (segment_times ++ [t])

/-- Loop body of `estimateSegmentTimesEuclidean` (lines 424-440); the local `end` is
written `goal`. -/
def euclideanSegmentTime (sqrt : K → K) (vertices : List (Vertex K)) (v_max : K)
    (i : Nat) : Option K := do
  let vi ← vertices[i]?
  let vj ← vertices[i + 1]?
  let start := vi.positionOrEmpty
  let goal := vj.positionOrEmpty
  let diff ← vsub goal start
  let distance := norm sqrt diff
  let t := distance / v_max
  let t := if t < 0.01 then 0.01 else t
  pure t

/-- The function `estimateSegmentTimesEuclidean` (lines 417-443). -/
def estimateSegmentTimesEuclidean (sqrt : K → K) (vertices : List (Vertex K))
    (v_max : K) : Option (List K) :=
  if 2 ≤ vertices.length then
    pushLoop (euclideanSegmentTime sqrt vertices v_max) (vertices.length - 1)
  else none

/-- The function `estimateSegmentTimes` (lines 263-265). -/
def estimateSegmentTimes (sqrt : K → K) (vertices : List (Vertex K))
    (v_max a_max j_max : K) : Option (List K) :=
  estimateSegmentTimesEuclidean sqrt vertices v_max

/-- The function `computeTimeVelocityRamp` (lines 449-464). -/
def computeTimeVelocityRamp (sqrt : K → K) (start goal : List K) (v_max a_max : K) :
    Option K := do
  let diff ← vsub start goal
  let distance := norm sqrt diff
  let acc_time := v_max / a_max
  let acc_distance := 0.5 * v_max * acc_time
  if distance < 2.0 * acc_distance then
    pure (2.0 * sqrt (distance / a_max))
  else
    pure (2.0 * acc_time + (distance - 2.0 * acc_distance) / v_max)

/-- The constant `kMinSegmentTime` of `estimateSegmentTimesVelocityRamp`. -/
def kMinSegmentTime : K := 0.1

/-- Loop body of `estimateSegmentTimesVelocityRamp` (lines 279-286); the local `end` is
written `goal`. -/
def velocityRampSegmentTime (sqrt : K → K) (vertices : List (Vertex K)) (v_max a_max : K)
    (i : Nat) : Option K := do
  let vi ← vertices[i]?
  let vj ← vertices[i + 1]?
  let start := vi.positionOrEmpty
  let goal := vj.positionOrEmpty
  let t ← computeTimeVelocityRamp sqrt start goal v_max a_max
  let t := max kMinSegmentTime t
  pure t

/-- The function `estimateSegmentTimesVelocityRamp` (lines 271-289); `time_factor` is
accepted and never read. -/
def estimateSegmentTimesVelocityRamp (sqrt : K → K) (vertices : List (Vertex K))
    (v_max a_max time_factor : K) : Option (List K) :=
  if 2 ≤ vertices.length then
    pushLoop (velocityRampSegmentTime sqrt vertices v_max a_max) (vertices.length - 1)
  else none

/-- The block shared by lines 326-334 and 362-370 of `estimateSegmentTimesBaca`: with
`vec1 = b - a` and `vec2 = c - b`, both normalised in place, `scalar` is their dot product
floored at `0.0` and the coefficient is `1 - scalar`. -/
def turnCoeff (sqrt : K → K) (a b c : List K) : Option K := do
  let vec1 ← vsub b a
  let vec2 ← vsub c b
  let vec1 := normalize sqrt vec1
  let vec2 := normalize sqrt vec2
  let d ← dot vec1 vec2
  let scalar := if d < 0 then 0.0 else d
  pure (1 - scalar)

/-- The mutable locals of one iteration of `estimateSegmentTimesBaca` (lines 309-316). -/
structure BacaLocals (K : Type) where
  acceleration_time_1 : K
  acceleration_time_2 : K
  jerk_time_1 : K
  jerk_time_2 : K
  acc_1_coeff : K
  acc_2_coeff : K

/-- Lines 320-375 of `estimateSegmentTimesBaca`: the locals after the four `if` blocks
(`i >= 1`, `i == 0`, `i == size - 2`, `i < size - 2`), before the caps. -/
def bacaPhases (sqrt : K → K) (vertices : List (Vertex K)) (v_max a_max j_max : K)
    (i : Nat) (start goal : List K) : Option (BacaLocals K) := do
  let s : BacaLocals K := ⟨0, 0, 0, 0, 0, 0⟩
  let s ←
    if 1 ≤ i then do
      let vp ← vertices[i - 1]?
      let pre := vp.positionOrEmpty
      let acc_1_coeff ← turnCoeff sqrt pre start goal
      pure (⟨acc_1_coeff * ((v_max / a_max) + (a_max / j_max)), s.acceleration_time_2,
        acc_1_coeff * (2 * (a_max / j_max)), s.jerk_time_2, acc_1_coeff, s.acc_2_coeff⟩ :
        BacaLocals K)
    else pure s
  let s : BacaLocals K :=
    if i = 0 then
      ⟨(v_max / a_max) + (a_max / j_max), s.acceleration_time_2,
        2 * (a_max / j_max), s.jerk_time_2, 1.0, s.acc_2_coeff⟩
    else s
  let s : BacaLocals K :=
    if i = vertices.length - 2 then
      ⟨s.acceleration_time_1, (v_max / a_max) + (a_max / j_max),
        s.jerk_time_1, 2 * (a_max / j_max), s.acc_1_coeff, 1.0⟩
    else s
  let s ←
    if i < vertices.length - 2 then do
      let vq ← vertices[i + 2]?
      let post := vq.positionOrEmpty
      let acc_2_coeff ← turnCoeff sqrt start goal post
      pure (⟨s.acceleration_time_1, acc_2_coeff * ((v_max / a_max) + (a_max / j_max)),
        s.jerk_time_1, acc_2_coeff * (2 * (a_max / j_max)), s.acc_1_coeff, acc_2_coeff⟩ :
        BacaLocals K)
    else pure s
  pure s

/-- Lines 377-391 of `estimateSegmentTimesBaca`: the four caps. -/
def bacaCaps (sqrt : K → K) (v_max a_max j_max distance : K) (s : BacaLocals K) :
    BacaLocals K :=
  let s : BacaLocals K :=
    if s.acceleration_time_1 > sqrt (distance / a_max) then
      ⟨sqrt (distance / a_max), s.acceleration_time_2, s.jerk_time_1, s.jerk_time_2,
        s.acc_1_coeff, s.acc_2_coeff⟩
    else s
  let s : BacaLocals K :=
    if s.jerk_time_1 > sqrt (v_max / j_max) then
      ⟨s.acceleration_time_1, s.acceleration_time_2, sqrt (v_max / j_max), s.jerk_time_2,
        s.acc_1_coeff, s.acc_2_coeff⟩
    else s
  let s : BacaLocals K :=
    if s.acceleration_time_2 > sqrt (distance / a_max) then
      ⟨s.acceleration_time_1, sqrt (distance / a_max), s.jerk_time_1, s.jerk_time_2,
        s.acc_1_coeff, s.acc_2_coeff⟩
    else s
  let s : BacaLocals K :=
    if s.jerk_time_2 > sqrt (v_max / j_max) then
      ⟨s.acceleration_time_1, s.acceleration_time_2, s.jerk_time_1, sqrt (v_max / j_max),
        s.acc_1_coeff, s.acc_2_coeff⟩
    else s
  s

/-- Loop body of `estimateSegmentTimesBaca` (lines 302-409); the local `end` is written
`goal`. -/
def bacaSegmentTime (sqrt : K → K) (vertices : List (Vertex K)) (v_max a_max j_max : K)
    (i : Nat) : Option K := do
  let vi ← vertices[i]?
  let vj ← vertices[i + 1]?
  let start := vi.positionOrEmpty
  let goal := vj.positionOrEmpty
  let diff ← vsub goal start
  let distance := norm sqrt diff
  let s ← bacaPhases sqrt vertices v_max a_max j_max i start goal
  let s := bacaCaps sqrt v_max a_max j_max distance s
  let max_velocity_time :=
    if ((distance - ((v_max * v_max) / a_max)) / v_max) < 0 then
      distance / v_max
    else
      (distance - ((v_max * v_max) / a_max)) / v_max
  let t := max_velocity_time + s.acceleration_time_1 + s.acceleration_time_2
  let t := if t < 0.01 then 0.01 else t
  pure t

/-- The function `estimateSegmentTimesBaca` (lines 295-411). -/
def estimateSegmentTimesBaca (sqrt : K → K) (vertices : List (Vertex K))
    (v_max a_max j_max : K) : Option (List K) :=
  if 2 ≤ vertices.length then
    pushLoop (bacaSegmentTime sqrt vertices v_max a_max j_max) (vertices.length - 1)
  else none

/-! ## Vocabulary of the statements -/

/-- A vertex sequence an estimator accepts: at least two vertices, each carrying a
position constraint, all of the same length `d`. -/
def ValidVertices (d : Nat) (vertices : List (Vertex K)) : Prop :=
  2 ≤ vertices.length ∧
    ∀ v ∈ vertices, (v.getConstraint POSITION).map List.length = some d

instance (d : Nat) (vertices : List (Vertex K)) : Decidable (ValidVertices d vertices) := by
  unfold ValidVertices
  infer_instance

/-- The position read at index `i` of a vertex sequence (empty when out of range or
when the vertex has no position constraint). -/
def positionAt (vertices : List (Vertex K)) (i : Nat) : List K :=
  (vertices[i]?.map Vertex.positionOrEmpty).getD []

/-- Every position read from the sequence (empty when the constraint is missing) has
length `d`. -/
def UniformPositions (d : Nat) (vertices : List (Vertex K)) : Prop :=
  ∀ i, i < vertices.length → (positionAt vertices i).length = d

instance (d : Nat) (vertices : List (Vertex K)) :
    Decidable (UniformPositions d vertices) := by
  unfold UniformPositions
  infer_instance

/-- The Euclidean distance `|q - p|` of two positions. -/
def distance (sqrt : K → K) (p q : List K) : K :=
  norm sqrt (List.zipWith (fun x y => x - y) q p)

/-- The spec's triangular-profile time `2*sqrt(d/aMax)`. -/
def rampTriangularTime (sqrt : K → K) (d aMax : K) : K :=
  2 * sqrt (d / aMax)

/-- The spec's trapezoidal-profile time `2*accTime + (d - 2*accDist)/vMax` with
`accTime = vMax/aMax` and `accDist = 0.5*vMax*accTime`. -/
def rampTrapezoidalTime (d vMax aMax : K) : K :=
  2 * (vMax / aMax) + (d - 2 * (0.5 * vMax * (vMax / aMax))) / vMax

/-- The spec's time model `T(d)` of `computeTimeVelocityRamp`: triangular when
`d < 2*accDist`, trapezoidal otherwise. -/
def velocityRampTime (sqrt : K → K) (d vMax aMax : K) : K :=
  if d < 2 * (0.5 * vMax * (vMax / aMax)) then rampTriangularTime sqrt d aMax
  else rampTrapezoidalTime d vMax aMax

/-- The dot product of two vectors of equal length. -/
def dotProduct (a b : List K) : K :=
  (List.zipWith (fun x y => x * y) a b).sum

/-- The spec's turn coefficient at the vertex `mid` between `pre` and `post`:
`1 - max(0, dot(u, w))` with `u`, `w` the normalised incoming direction `mid - pre` and
outgoing direction `post - mid`. -/
def turnCoefficient (sqrt : K → K) (pre mid post : List K) : K :=
  1 - max 0 (dotProduct
    (normalize sqrt (List.zipWith (fun x y => x - y) mid pre))
    (normalize sqrt (List.zipWith (fun x y => x - y) post mid)))

/-- The entry coefficient of segment `i`: `1` on the first segment, the turn coefficient
at vertex `i` otherwise. -/
def entryCoefficient (sqrt : K → K) (vs : List (Vertex K)) (i : Nat) : K :=
  if i = 0 then 1
  else turnCoefficient sqrt (positionAt vs (i - 1)) (positionAt vs i) (positionAt vs (i + 1))

/-- The exit coefficient of segment `i`: `1` on the last segment, the turn coefficient
at vertex `i + 1` otherwise. -/
def exitCoefficient (sqrt : K → K) (vs : List (Vertex K)) (i : Nat) : K :=
  if i = vs.length - 2 then 1
  else turnCoefficient sqrt (positionAt vs i) (positionAt vs (i + 1)) (positionAt vs (i + 2))

/-- The spec's Baca cruise time: `d/vMax` if `d - vMax^2/aMax < 0`, else
`(d - vMax^2/aMax)/vMax`. -/
def bacaCruiseTime (d vMax aMax : K) : K :=
  if d - vMax ^ 2 / aMax < 0 then d / vMax else (d - vMax ^ 2 / aMax) / vMax

/-- The spec's Baca segment time for entry and exit coefficients `cEntry`, `cExit` and
segment length `d`: cruise time plus the two acceleration-phase times, each the
coefficient times `A = vMax/aMax + aMax/jMax` capped at `sqrt(d/aMax)`, floored at
`0.01`. -/
def bacaTime (sqrt : K → K) (cEntry cExit d vMax aMax jMax : K) : K :=
  max 0.01 (bacaCruiseTime d vMax aMax
    + min (cEntry * (vMax / aMax + aMax / jMax)) (sqrt (d / aMax))
    + min (cExit * (vMax / aMax + aMax / jMax)) (sqrt (d / aMax)))

/-- The four corners `(0,0,0)`, `(0,1,0)`, `(1,1,0)`, `(1,0,0)` of the unit square, each
a 3-dimensional vertex carrying only its position constraint. -/
def unitSquareVertices : List (Vertex K) :=
  [⟨3, [(POSITION, [0, 0, 0])]⟩, ⟨3, [(POSITION, [0, 1, 0])]⟩,
   ⟨3, [(POSITION, [1, 1, 0])]⟩, ⟨3, [(POSITION, [1, 0, 0])]⟩]

/-- Three 1-dimensional vertices at `0`, `1`, `2`: a straight path. -/
def straightLineVertices : List (Vertex K) :=
  [⟨1, [(POSITION, [0])]⟩, ⟨1, [(POSITION, [1])]⟩, ⟨1, [(POSITION, [2])]⟩]

/-- Two consecutive positions read from the sequence (empty when the constraint is
missing) differ in length. -/
def PositionLengthMismatch (vertices : List (Vertex K)) : Prop :=
  ∃ i, i + 1 < vertices.length ∧
    (positionAt vertices i).length ≠ (positionAt vertices (i + 1)).length

instance (vertices : List (Vertex K)) : Decidable (PositionLengthMismatch vertices) :=
  decidable_of_iff
    (∃ i, i < vertices.length - 1 ∧
      (positionAt vertices i).length ≠ (positionAt vertices (i + 1)).length)
    ⟨fun ⟨i, hi, h⟩ => ⟨i, by omega, h⟩, fun ⟨i, hi, h⟩ => ⟨i, by omega, h⟩⟩

/-- Two 3-dimensional vertices without any constraint. -/
def unconstrainedPair : List (Vertex K) :=
  [Vertex.new 3, Vertex.new 3]

/-- A 3-dimensional vertex without any constraint followed by one at the origin. -/
def halfConstrainedPair : List (Vertex K) :=
  [Vertex.new 3, ⟨3, [(POSITION, [0, 0, 0])]⟩]

/-! ## Vertex operations -/

/-- The call `constraints_.erase(it)` for the entry found under `type`: the entry with
that key is dropped, the others keep their order. -/
def mapErase (type : Int) : List (Int × List K) → List (Int × List K)
  | [] => []
  | (k, c) :: rest => if k = type then rest else (k, c) :: mapErase type rest

/-- The method `Vertex::removeConstraint` (lines 141-150): the returned flag and the
vertex after the call. -/
def Vertex.removeConstraint (v : Vertex K) (type : Int) : Bool × Vertex K :=
  if (v.constraints.lookup type).isSome then
    (true, ⟨v.D, mapErase type v.constraints⟩)
  else
    (false, v)

/-- The loop `for (int i = 1; i <= up_to_derivative; ++i) constraints_[i] = Zero(D_)` of
`makeStartOrEnd` after its first `n` iterations. -/
def zeroLoop (D : Nat) (constraints : List (Int × List K)) : Nat → List (Int × List K)
  | 0 => constraints
  | n + 1 => mapAssign ((n + 1 : Nat) : Int) (List.replicate D 0) (zeroLoop D constraints n)

/-- The method `Vertex::makeStartOrEnd` (lines 156-161): `addConstraint` for the position
(with its `CHECK_EQ`), then the zeroing loop, which runs `up_to_derivative` times when that
is positive and not at all otherwise. -/
def Vertex.makeStartOrEnd (v : Vertex K) (constraint : List K) (up_to_derivative : Int) :
    Option (Vertex K) := do
  let v ← v.addConstraint POSITION constraint
  pure ⟨v.D, zeroLoop v.D v.constraints up_to_derivative.toNat⟩

/-- Eigen `isZero(prec)`: every coefficient `x` satisfies `abs(x) <= abs(1) * prec`. -/
def isZero (v : List K) (prec : K) : Bool :=
  v.all (fun x => decide (|x| ≤ |(1 : K)| * prec))

/-- The loop of `Vertex::isEqualTol` (lines 194-203) over the remaining entries of the
left-hand map: `some false` and `some true` are the two returns, `none` the size assertion
of the vector difference. -/
def isEqualTolLoop (rhs_constraints : List (Int × List K)) (tol : K) :
    List (Int × List K) → Option Bool
  | [] => some true
  | (first, second) :: rest =>
    match rhs_constraints.lookup first with
    | none => some false
    | some rhs_second => do
      let diff ← vsub second rhs_second
      if !(isZero diff tol) then pure false
      else isEqualTolLoop rhs_constraints tol rest

/-- The method `Vertex::isEqualTol` (lines 190-204). -/
def Vertex.isEqualTol (lhs rhs : Vertex K) (tol : K) : Option Bool :=
  if lhs.constraints.length ≠ rhs.constraints.length then some false
  else isEqualTolLoop rhs.constraints tol lhs.constraints

/-- The inner loop of `getSubdimension` (lines 225-228): `subsconstraint[i] =
original_constraint[subdimensions[i]]` for every `i`; an index outside the vector trips
Eigen's range assertion. -/
def gather (original_constraint : List K) : List Nat → Option (List K)
  | [] => some []
  | subdimension :: rest => do
    let x ← original_constraint[subdimension]?
    let xs ← gather original_constraint rest
    pure (x :: xs)

/-- The copy loop of `getSubdimension` (lines 220-230) over the remaining entries of
`constraints_`, threading `*subvertex`. -/
def copyLoop (subdimensions : List Nat) (max_derivative_order : Int) :
    List (Int × List K) → Vertex K → Option (Vertex K)
  | [], subvertex => some subvertex
  | (derivative_order, original_constraint) :: rest, subvertex =>
    if derivative_order > max_derivative_order then
      copyLoop subdimensions max_derivative_order rest subvertex
    else do
      let subsconstraint ← gather original_constraint subdimensions
      let subvertex ← subvertex.addConstraint derivative_order subsconstraint
      copyLoop subdimensions max_derivative_order rest subvertex

/-- The method `Vertex::getSubdimension` (lines 210-232): the returned flag and
`*subvertex` after the call. -/
def Vertex.getSubdimension (v : Vertex K) (subdimensions : List Nat)
    (max_derivative_order : Int) : Option (Bool × Vertex K) :=
  let subvertex : Vertex K := Vertex.new subdimensions.length
  if subdimensions.any (fun subdimension => decide (subdimension ≥ v.D)) then
    some (false, subvertex)
  else
    (copyLoop subdimensions max_derivative_order v.constraints subvertex).map
      (fun s => (true, s))

/-- The Vertex invariant of the data model: every stored constraint vector has exactly
length `D`. -/
def Vertex.Invariant (v : Vertex K) : Prop :=
  ∀ e ∈ v.constraints, e.2.length = v.D

instance (v : Vertex K) : Decidable v.Invariant := by
  unfold Vertex.Invariant
  infer_instance

/-- The ordered-map property of `constraints_`: keys strictly ascending, hence unique. -/
def Vertex.KeysAscending (v : Vertex K) : Prop :=
  (v.constraints.map Prod.fst).Pairwise (fun a b => a < b)

instance (v : Vertex K) : Decidable v.KeysAscending := by
  unfold Vertex.KeysAscending
  infer_instance

/-! ## Vertex-sequence builders -/

/-- The conversion `static_cast<int>(n)` of a `size_t` value: its low 32 bits read as a
two's-complement `int`. -/
def castToInt (n : Nat) : Int :=
  if n % 2 ^ 32 < 2 ^ 31 then ((n % 2 ^ 32 : Nat) : Int)
  else ((n % 2 ^ 32 : Nat) : Int) - 2 ^ 32

/-- The constant `min_distance` of `createRandomVertices`. -/
def min_distance : K := 0.2

/-- One pass of `for (d = 0; d < dimension; ++d) pos[d] = distribution[d](generator)`
(lines 53-55 and 66-68).  `draws` is the stream of canonical variates in `[0, 1)` the
seeded `std::mt19937` delivers, `drawn` the number consumed so far, and
`std::uniform_real_distribution<double>(a, b)` maps a variate `u` to `a + u * (b - a)`. -/
def drawPosition (draws : Nat → K) (pos_min pos_max : List K) (drawn : Nat) : List K :=
  (List.range pos_min.length).map
    (fun d => pos_min.getD d 0 + draws (drawn + d) * (pos_max.getD d 0 - pos_min.getD d 0))

/-- The rejection loop `while (true) { draw pos; if ((pos - last_pos).norm() >
min_distance) break; }` (lines 65-72) with at most `fuel` passes: the accepted position
and the number of variates consumed, or `none` when no pass within the fuel breaks. -/
def rejectionLoop (sqrt : K → K) (draws : Nat → K) (pos_min pos_max last_pos : List K) :
    Nat → Nat → Option (List K × Nat)
  | 0, _ => none
  | fuel + 1, drawn => do
    let pos := drawPosition draws pos_min pos_max drawn
    let diff ← vsub pos last_pos
    if norm sqrt diff > min_distance then
      pure (pos, drawn + pos_min.length)
    else
      rejectionLoop sqrt draws pos_min pos_max last_pos fuel (drawn + pos_min.length)

/-- The loop `for (i = 1; i < n_vertices; ++i)` of `createRandomVertices` (lines 62-78)
after `n` iterations: the vector `vertices`, `last_pos` and the number of variates
consumed; `first` is the start vertex already pushed and `first_pos` its position. -/
def vertexLoop (sqrt : K → K) (draws : Nat → K) (fuel : Nat) (pos_min pos_max : List K)
    (first : Vertex K) (first_pos : List K) :
    Nat → Option (List (Vertex K) × List K × Nat)
  | 0 => some ([first], first_pos, pos_min.length)
  | n + 1 => do
    let state ← vertexLoop sqrt draws fuel pos_min pos_max first first_pos n
    let accepted ← rejectionLoop sqrt draws pos_min pos_max state.2.1 fuel state.2.2
    let v ← (Vertex.new pos_min.length).addConstraint POSITION accepted.1
    pure (state.1 ++ [v], accepted.1, accepted.2)

/-- The function `createRandomVertices` (lines 31-82).  `generator seed` is the stream of
canonical variates of `std::mt19937 generator(seed)`; `fuel` bounds the passes of each
rejection loop; `none` is a failed `CHECK` or a rejection loop that does not break within
the fuel. -/
def createRandomVertices (sqrt : K → K) (generator : Nat → Nat → K) (fuel : Nat)
    (maximum_derivative : Int) (n_segments : Nat) (pos_min pos_max : List K) (seed : Nat) :
    Option (List (Vertex K)) :=
  if castToInt n_segments ≥ 1 then
    if pos_min.length = pos_max.length then do
      let range ← vsub pos_max pos_min
      if norm sqrt range ≥ 0.2 then
        if maximum_derivative > 0 then do
          let draws := generator seed
          let dimension := pos_min.length
          let n_vertices := n_segments + 1
          let last_pos := drawPosition draws pos_min pos_max 0
          let front ← (Vertex.new dimension).makeStartOrEnd last_pos maximum_derivative
          let state ←
            vertexLoop sqrt draws fuel pos_min pos_max front last_pos (n_vertices - 1)
          let back ← state.1.getLast?
          let back ← back.makeStartOrEnd state.2.1 maximum_derivative
          pure (state.1.dropLast ++ [back])
        else none
      else none
    else none
  else none

/-- The spec's start/end vertex at `position`: the position constraint plus a zero
constraint for every derivative order from 1 through `maxDerivative`. -/
def startOrEndVertex (D : Nat) (position : List K) (maxDerivative : Nat) : Vertex K :=
  ⟨D, (POSITION, position) ::
    (List.range maxDerivative).map (fun i => (((i + 1 : Nat) : Int), List.replicate D 0))⟩

/-- The spec's interior vertex at `position`: only the position constraint. -/
def positionVertex (D : Nat) (position : List K) : Vertex K :=
  ⟨D, [(POSITION, position)]⟩

/-- A stream of canonical variates for the examples: the `k`-th variate is `k / 2` for
`k < 2` (so `0`, then `1/2`) and `0` afterwards, whatever the seed. -/
def sampleGenerator (_seed : Nat) (k : Nat) : K :=
  if k < 2 then (k : K) / 2 else 0


/-! ## The square path -/

/-- Four 1-dimensional vertices at `0`, `4`, `8`, `12`: a straight path with an interior
segment. -/
def collinearVertices : List (Vertex K) :=
  [⟨1, [(POSITION, [0])]⟩, ⟨1, [(POSITION, [4])]⟩, ⟨1, [(POSITION, [8])]⟩,
   ⟨1, [(POSITION, [12])]⟩]


/-! ## The loop -/

theorem pushLoop_isSome (body : Nat → Option K) (n : Nat)
    (h : ∀ i, i < n → (body i).isSome = true) : ∃ l, pushLoop body n = some l := by
  induction n with
  | zero => exact ⟨[], rfl⟩
  | succ n ih =>
    obtain ⟨l, hl⟩ := ih (fun i hi => h i (Nat.lt_succ_of_lt hi))
    obtain ⟨t, ht⟩ := Option.isSome_iff_exists.mp (h n (Nat.lt_succ_self n))
    exact ⟨l ++ [t], by simp [pushLoop, hl, ht]⟩

theorem pushLoop_spec (body : Nat → Option K) (n : Nat) (l : List K)
    (h : pushLoop body n = some l) :
    l.length = n ∧ ∀ i, i < n → l[i]? = body i := by
  induction n generalizing l with
  | zero =>
    simp [pushLoop] at h
    subst h
    simp
  | succ n ih =>
    simp only [pushLoop, Option.bind_eq_bind, Option.pure_def] at h
    cases hp : pushLoop body n with
    | none => simp [hp] at h
    | some l0 =>
      cases hb : body n with
      | none => simp [hp, hb] at h
      | some t =>
        simp [hp, hb] at h
        subst h
        obtain ⟨hlen, hget⟩ := ih l0 hp
        refine ⟨by simp [hlen], ?_⟩
        intro i hi
        rcases Nat.lt_succ_iff_lt_or_eq.mp hi with hlt | heq
        · rw [List.getElem?_append_left (by omega), hget i hlt]
        · subst heq
          rw [List.getElem?_append_right (by omega)]
          simp [hlen, hb]

theorem pushLoop_eq_none_iff (body : Nat → Option K) (n : Nat) :
    pushLoop body n = none ↔ ∃ i, i < n ∧ body i = none := by
  constructor
  · intro h
    by_contra hne
    have hall : ∀ i, i < n → (body i).isSome = true := by
      intro i hi
      cases hb : body i with
      | none => exact absurd ⟨i, hi, hb⟩ hne
      | some t => rfl
    obtain ⟨l, hl⟩ := pushLoop_isSome body n hall
    simp [hl] at h
  · rintro ⟨i, hi, hb⟩
    cases hp : pushLoop body n with
    | none => rfl
    | some l =>
      have := (pushLoop_spec body n l hp).2 i hi
      rw [hb] at this
      have hlt : i < l.length := by rw [(pushLoop_spec body n l hp).1]; exact hi
      simp [List.getElem?_eq_none_iff] at this
      omega

/-! ## Reading positions -/

theorem clamp_eq_max (c t : K) : (if t < c then c else t) = max c t := by
  rcases lt_or_le t c with h | h
  · rw [if_pos h, max_eq_left h.le]
  · rw [if_neg (not_lt.mpr h), max_eq_right h]

theorem positionAt_of_getElem? (vs : List (Vertex K)) (i : Nat) (v : Vertex K)
    (h : vs[i]? = some v) : positionAt vs i = v.positionOrEmpty := by
  simp [positionAt, h]

theorem positionAt_length {d : Nat} {vs : List (Vertex K)} (hv : ValidVertices d vs)
    (i : Nat) (hi : i < vs.length) : (positionAt vs i).length = d := by
  have hmem : vs[i] ∈ vs := List.getElem_mem hi
  have h := hv.2 _ hmem
  rw [positionAt_of_getElem? vs i vs[i] (List.getElem?_eq_getElem hi)]
  unfold Vertex.positionOrEmpty
  cases hg : vs[i].getConstraint POSITION with
  | none => simp [hg] at h
  | some p => simpa [hg] using h

theorem vsub_of_length_eq (a b : List K) (h : a.length = b.length) :
    vsub a b = some (List.zipWith (fun x y => x - y) a b) := by
  simp [vsub, h]

theorem vsub_eq_none_iff (a b : List K) : vsub a b = none ↔ a.length ≠ b.length := by
  unfold vsub
  split <;> simp_all

/-! ## The Euclidean estimator -/

theorem euclideanSegmentTime_eq (sqrt : K → K) (vs : List (Vertex K)) (v_max : K)
    (i : Nat) (hi : i + 1 < vs.length) :
    euclideanSegmentTime sqrt vs v_max i =
      (vsub (positionAt vs (i + 1)) (positionAt vs i)).map
        (fun diff => max 0.01 (norm sqrt diff / v_max)) := by
  have h0 : vs[i]? = some vs[i] := List.getElem?_eq_getElem (by omega)
  have h1 : vs[i + 1]? = some vs[i + 1] := List.getElem?_eq_getElem hi
  simp only [euclideanSegmentTime, h0, h1, positionAt, Option.map_some', Option.getD_some,
    Option.bind_eq_bind, Option.some_bind, Option.pure_def, clamp_eq_max]
  cases vsub vs[i + 1].positionOrEmpty vs[i].positionOrEmpty <;> rfl

theorem euclideanSegmentTime_valid (sqrt : K → K) {d : Nat} {vs : List (Vertex K)}
    (hv : UniformPositions d vs) (v_max : K) (i : Nat) (hi : i + 1 < vs.length) :
    euclideanSegmentTime sqrt vs v_max i =
      some (max 0.01 (distance sqrt (positionAt vs i) (positionAt vs (i + 1)) / v_max)) := by
  rw [euclideanSegmentTime_eq sqrt vs v_max i hi, vsub_of_length_eq]
  · rfl
  · rw [hv _ hi, hv i (by omega)]

theorem euclidean_some (sqrt : K → K) {d : Nat} {vs : List (Vertex K)}
    (h2 : 2 ≤ vs.length) (hv : UniformPositions d vs) (v_max : K) :
    ∃ l, estimateSegmentTimesEuclidean sqrt vs v_max = some l ∧
      l.length = vs.length - 1 ∧
      ∀ i, i < vs.length - 1 → l[i]? = euclideanSegmentTime sqrt vs v_max i := by
  obtain ⟨l, hl⟩ := pushLoop_isSome (euclideanSegmentTime sqrt vs v_max) (vs.length - 1)
    (fun i hi => by rw [euclideanSegmentTime_valid sqrt hv v_max i (by omega)]; rfl)
  refine ⟨l, by simp [estimateSegmentTimesEuclidean, h2, hl], ?_⟩
  exact pushLoop_spec _ _ _ hl

/-- C3: on a valid vertex sequence with positions `p_0 .. p_{n-1}` and `vMax > 0`,
`estimateSegmentTimesEuclidean` returns `n - 1` durations, the `i`-th being
`max(0.01, |p_{i+1} - p_i| / vMax)`; a two-vertex sequence at `p0`, `p1` yields the
single value `max(0.01, |p1 - p0| / vMax)`; the unit square with `vMax = 1` yields
`[1, 1, 1]`. -/
theorem estimateSegmentTimesEuclidean_formula :
    (∀ (d : Nat) (vs : List (Vertex ℝ)) (vMax : ℝ), ValidVertices d vs → 0 < vMax →
      ∃ l, estimateSegmentTimesEuclidean Real.sqrt vs vMax = some l ∧
        l.length = vs.length - 1 ∧
        ∀ i, i < vs.length - 1 →
          l[i]? = some (max 0.01
            (distance Real.sqrt (positionAt vs i) (positionAt vs (i + 1)) / vMax))) ∧
    (∀ (v0 v1 : Vertex ℝ) (p0 p1 : List ℝ) (vMax : ℝ),
      v0.getConstraint POSITION = some p0 → v1.getConstraint POSITION = some p1 →
      p0.length = p1.length → 0 < vMax →
      estimateSegmentTimesEuclidean Real.sqrt [v0, v1] vMax =
        some [max 0.01 (distance Real.sqrt p0 p1 / vMax)]) ∧
    estimateSegmentTimesEuclidean Real.sqrt (unitSquareVertices : List (Vertex ℝ)) 1 =
      some [1, 1, 1] := by
  refine ⟨?_, ?_, ?_⟩
  · intro d vs vMax hv _
    obtain ⟨l, hl, hlen, hget⟩ :=
      euclidean_some Real.sqrt hv.1 (positionAt_length hv) vMax
    refine ⟨l, hl, hlen, fun i hi => ?_⟩
    rw [hget i hi, euclideanSegmentTime_valid Real.sqrt (positionAt_length hv) vMax i (by omega)]
  · intro v0 v1 p0 p1 vMax h0 h1 hlen _
    simp [estimateSegmentTimesEuclidean, pushLoop, euclideanSegmentTime,
      Vertex.positionOrEmpty, h0, h1, vsub, hlen, clamp_eq_max, distance]
  · simp [estimateSegmentTimesEuclidean, pushLoop, euclideanSegmentTime, unitSquareVertices,
      Vertex.positionOrEmpty, Vertex.getConstraint, List.lookup, vsub, norm, squaredNorm]
    norm_num

/-- Witness for C3: the general formula applied to the unit square at `vMax = 1`. -/
theorem estimateSegmentTimesEuclidean_formula_witness :
    ∃ l, estimateSegmentTimesEuclidean Real.sqrt (unitSquareVertices : List (Vertex ℝ)) 1
        = some l ∧
      l.length = (unitSquareVertices : List (Vertex ℝ)).length - 1 ∧
      ∀ i, i < (unitSquareVertices : List (Vertex ℝ)).length - 1 →
        l[i]? = some (max 0.01
          (distance Real.sqrt (positionAt unitSquareVertices i)
            (positionAt unitSquareVertices (i + 1)) / 1)) :=
  estimateSegmentTimesEuclidean_formula.1 3 unitSquareVertices 1
    ⟨by simp [unitSquareVertices], by
      simp [unitSquareVertices, Vertex.getConstraint, List.lookup]⟩
    one_pos

/-- C4: `estimateSegmentTimes` returns exactly what `estimateSegmentTimesEuclidean`
returns on the same vertices and `vMax` (the same durations or the same failure), so its
result does not depend on `aMax` or `jMax`. -/
theorem estimateSegmentTimes_delegates (sqrt : K → K) (vertices : List (Vertex K))
    (vMax aMax jMax : K) :
    estimateSegmentTimes sqrt vertices vMax aMax jMax =
        estimateSegmentTimesEuclidean sqrt vertices vMax ∧
      ∀ aMax2 jMax2 : K, estimateSegmentTimes sqrt vertices vMax aMax jMax =
        estimateSegmentTimes sqrt vertices vMax aMax2 jMax2 :=
  ⟨rfl, fun _ _ => rfl⟩

/-! ## Vector arithmetic -/

theorem squaredNorm_sub_comm (a b : List K) :
    squaredNorm (List.zipWith (fun x y => x - y) a b) =
      squaredNorm (List.zipWith (fun x y => x - y) b a) := by
  induction a generalizing b with
  | nil => cases b <;> rfl
  | cons x xs ih =>
    cases b with
    | nil => rfl
    | cons y ys =>
      have h := ih ys
      simp only [squaredNorm, List.zipWith_cons_cons, List.map_cons, List.sum_cons] at h ⊢
      rw [h]
      ring

theorem normalize_length (sqrt : K → K) (v : List K) :
    (normalize sqrt v).length = v.length := by
  unfold normalize
  simp only
  split <;> simp

theorem dot_of_length_eq (a b : List K) (h : a.length = b.length) :
    dot a b = some (dotProduct a b) := by
  simp [dot, dotProduct, h]

/-! ## The velocity-ramp estimator -/

theorem computeTimeVelocityRamp_of_length_eq (sqrt : K → K) (start goal : List K)
    (v_max a_max : K) (h : start.length = goal.length) :
    computeTimeVelocityRamp sqrt start goal v_max a_max =
      some (velocityRampTime sqrt (distance sqrt start goal) v_max a_max) := by
  have hn : norm sqrt (List.zipWith (fun x y => x - y) start goal) =
      distance sqrt start goal := by
    simp only [norm, distance, squaredNorm_sub_comm start goal]
  simp only [computeTimeVelocityRamp, vsub_of_length_eq start goal h, Option.bind_eq_bind,
    Option.some_bind, hn, velocityRampTime, rampTriangularTime, rampTrapezoidalTime]
  have h2 : (2.0 : K) = 2 := by norm_num
  rw [h2]
  split <;> rfl

theorem velocityRampSegmentTime_eq (sqrt : K → K) (vs : List (Vertex K)) (v_max a_max : K)
    (i : Nat) (hi : i + 1 < vs.length) :
    velocityRampSegmentTime sqrt vs v_max a_max i =
      (computeTimeVelocityRamp sqrt (positionAt vs i) (positionAt vs (i + 1))
        v_max a_max).map (fun t => max 0.1 t) := by
  have h0 : vs[i]? = some vs[i] := List.getElem?_eq_getElem (by omega)
  have h1 : vs[i + 1]? = some vs[i + 1] := List.getElem?_eq_getElem hi
  simp only [velocityRampSegmentTime, h0, h1, positionAt, Option.map_some',
    Option.getD_some, Option.bind_eq_bind, Option.some_bind, Option.pure_def,
    kMinSegmentTime]
  cases computeTimeVelocityRamp sqrt vs[i].positionOrEmpty vs[i + 1].positionOrEmpty
    v_max a_max <;> rfl

theorem velocityRampSegmentTime_valid (sqrt : K → K) {d : Nat} {vs : List (Vertex K)}
    (hv : UniformPositions d vs) (v_max a_max : K) (i : Nat) (hi : i + 1 < vs.length) :
    velocityRampSegmentTime sqrt vs v_max a_max i =
      some (max 0.1 (velocityRampTime sqrt
        (distance sqrt (positionAt vs i) (positionAt vs (i + 1))) v_max a_max)) := by
  rw [velocityRampSegmentTime_eq sqrt vs v_max a_max i hi,
    computeTimeVelocityRamp_of_length_eq]
  · rfl
  · rw [hv _ hi, hv i (by omega)]

theorem velocityRamp_some (sqrt : K → K) {d : Nat} {vs : List (Vertex K)}
    (h2 : 2 ≤ vs.length) (hv : UniformPositions d vs) (v_max a_max time_factor : K) :
    ∃ l, estimateSegmentTimesVelocityRamp sqrt vs v_max a_max time_factor = some l ∧
      l.length = vs.length - 1 ∧
      ∀ i, i < vs.length - 1 → l[i]? = velocityRampSegmentTime sqrt vs v_max a_max i := by
  obtain ⟨l, hl⟩ := pushLoop_isSome (velocityRampSegmentTime sqrt vs v_max a_max)
    (vs.length - 1)
    (fun i hi => by rw [velocityRampSegmentTime_valid sqrt hv v_max a_max i (by omega)]; rfl)
  refine ⟨l, by simp [estimateSegmentTimesVelocityRamp, h2, hl], ?_⟩
  exact pushLoop_spec _ _ _ hl

/-! ## The Baca estimator -/

theorem turnCoeff_of_length_eq (sqrt : K → K) (a b c : List K)
    (hab : a.length = b.length) (hbc : b.length = c.length) :
    turnCoeff sqrt a b c = some (turnCoefficient sqrt a b c) := by
  have hd : (normalize sqrt (List.zipWith (fun x y => x - y) b a)).length =
      (normalize sqrt (List.zipWith (fun x y => x - y) c b)).length := by
    simp [normalize_length, hab, hbc]
  have h0 : (0.0 : K) = 0 := by norm_num
  simp only [turnCoeff, vsub_of_length_eq b a hab.symm, vsub_of_length_eq c b hbc.symm,
    Option.bind_eq_bind, Option.some_bind, dot_of_length_eq _ _ hd, Option.pure_def,
    turnCoefficient, h0, clamp_eq_max]

theorem bacaCaps_acceleration_time_1 (sqrt : K → K) (v_max a_max j_max dist : K)
    (s : BacaLocals K) :
    (bacaCaps sqrt v_max a_max j_max dist s).acceleration_time_1 =
      min s.acceleration_time_1 (sqrt (dist / a_max)) := by
  simp only [bacaCaps, gt_iff_lt]
  split_ifs <;> simp_all [min_def, not_lt, le_of_lt]

theorem bacaCaps_acceleration_time_2 (sqrt : K → K) (v_max a_max j_max dist : K)
    (s : BacaLocals K) :
    (bacaCaps sqrt v_max a_max j_max dist s).acceleration_time_2 =
      min s.acceleration_time_2 (sqrt (dist / a_max)) := by
  simp only [bacaCaps, gt_iff_lt]
  split_ifs <;> simp_all [min_def, not_lt, le_of_lt]

theorem bacaPhases_valid (sqrt : K → K) {d : Nat} {vs : List (Vertex K)}
    (hv : UniformPositions d vs) (v_max a_max j_max : K) (i : Nat) (hi : i + 1 < vs.length) :
    bacaPhases sqrt vs v_max a_max j_max i (positionAt vs i) (positionAt vs (i + 1)) =
      some ⟨entryCoefficient sqrt vs i * (v_max / a_max + a_max / j_max),
        exitCoefficient sqrt vs i * (v_max / a_max + a_max / j_max),
        entryCoefficient sqrt vs i * (2 * (a_max / j_max)),
        exitCoefficient sqrt vs i * (2 * (a_max / j_max)),
        entryCoefficient sqrt vs i, exitCoefficient sqrt vs i⟩ := by
  have hl0 := hv i (by omega)
  have hl1 := hv (i + 1) hi
  have h1 : (1.0 : K) = 1 := by norm_num
  rcases Nat.eq_zero_or_pos i with hi0 | hipos
  · subst hi0
    rcases Nat.lt_or_ge 0 (vs.length - 2) with hlast | hlast
    · have hq : vs[2]? = some vs[2] := List.getElem?_eq_getElem (by omega)
      have hl2 := hv 2 (by omega)
      have hp2 := positionAt_of_getElem? vs 2 _ hq
      have htc := turnCoeff_of_length_eq sqrt (positionAt vs 0) (positionAt vs (0 + 1))
        (positionAt vs 2) (by omega) (by omega)
      have hne : ¬ (0 = vs.length - 2) := by omega
      simp only [bacaPhases, Nat.not_succ_le_zero, if_false, if_true, hne, hlast, hq,
        Option.bind_eq_bind, Option.some_bind, Option.pure_def, ← hp2, htc]
      simp [entryCoefficient, exitCoefficient, hne, h1]
    · have he : 0 = vs.length - 2 := by omega
      simp only [bacaPhases, Nat.not_succ_le_zero, if_false, if_true, ← he,
        lt_irrefl, Option.bind_eq_bind, Option.some_bind, Option.pure_def]
      simp [entryCoefficient, exitCoefficient, ← he, h1]
  · have hp : vs[i - 1]? = some vs[i - 1] := List.getElem?_eq_getElem (by omega)
    have hlp := hv (i - 1) (by omega)
    have hpp := positionAt_of_getElem? vs (i - 1) _ hp
    have htc1 := turnCoeff_of_length_eq sqrt (positionAt vs (i - 1)) (positionAt vs i)
      (positionAt vs (i + 1)) (by omega) (by omega)
    have hge : 1 ≤ i := hipos
    have hne0 : ¬ (i = 0) := by omega
    rcases Nat.lt_or_ge i (vs.length - 2) with hlast | hlast
    · have hq : vs[i + 2]? = some vs[i + 2] := List.getElem?_eq_getElem (by omega)
      have hl2 := hv (i + 2) (by omega)
      have hp2 := positionAt_of_getElem? vs (i + 2) _ hq
      have htc := turnCoeff_of_length_eq sqrt (positionAt vs i) (positionAt vs (i + 1))
        (positionAt vs (i + 2)) (by omega) (by omega)
      have hne : ¬ (i = vs.length - 2) := by omega
      simp only [bacaPhases, hge, hne0, if_false, if_true, hne, hlast, hq, hp,
        Option.bind_eq_bind, Option.some_bind, Option.pure_def, ← hp2, ← hpp, htc, htc1]
      simp [entryCoefficient, exitCoefficient, hne, hne0]
    · have he : i = vs.length - 2 := by omega
      simp only [bacaPhases, hge, hne0, if_false, if_true, ← he, hp,
        lt_irrefl, Option.bind_eq_bind, Option.some_bind, Option.pure_def, ← hpp, htc1]
      simp [entryCoefficient, exitCoefficient, ← he, hne0, h1]

theorem baca_cruise_eq (dist v_max a_max : K) (hvm : 0 < v_max) :
    (if ((dist - ((v_max * v_max) / a_max)) / v_max) < 0 then dist / v_max
      else (dist - ((v_max * v_max) / a_max)) / v_max) = bacaCruiseTime dist v_max a_max := by
  have hiff : ((dist - ((v_max * v_max) / a_max)) / v_max < 0) ↔
      (dist - v_max ^ 2 / a_max < 0) := by
    rw [div_lt_iff₀ hvm, zero_mul, pow_two]
  unfold bacaCruiseTime
  by_cases h : dist - v_max ^ 2 / a_max < 0
  · rw [if_pos (hiff.mpr h), if_pos h]
  · rw [if_neg (fun h2 => h (hiff.mp h2)), if_neg h, pow_two]

theorem bacaSegmentTime_raw (sqrt : K → K) {d : Nat} {vs : List (Vertex K)}
    (hv : UniformPositions d vs) (v_max a_max j_max : K) (i : Nat) (hi : i + 1 < vs.length) :
    bacaSegmentTime sqrt vs v_max a_max j_max i =
      some (max 0.01
        ((if ((distance sqrt (positionAt vs i) (positionAt vs (i + 1))
                - ((v_max * v_max) / a_max)) / v_max) < 0 then
            distance sqrt (positionAt vs i) (positionAt vs (i + 1)) / v_max
          else (distance sqrt (positionAt vs i) (positionAt vs (i + 1))
                - ((v_max * v_max) / a_max)) / v_max)
          + min (entryCoefficient sqrt vs i * (v_max / a_max + a_max / j_max))
              (sqrt (distance sqrt (positionAt vs i) (positionAt vs (i + 1)) / a_max))
          + min (exitCoefficient sqrt vs i * (v_max / a_max + a_max / j_max))
              (sqrt (distance sqrt (positionAt vs i) (positionAt vs (i + 1)) / a_max)))) := by
  have h0 : vs[i]? = some vs[i] := List.getElem?_eq_getElem (by omega)
  have h1 : vs[i + 1]? = some vs[i + 1] := List.getElem?_eq_getElem hi
  have hp0 := positionAt_of_getElem? vs i _ h0
  have hp1 := positionAt_of_getElem? vs (i + 1) _ h1
  have hlen : (positionAt vs (i + 1)).length = (positionAt vs i).length := by
    rw [hv _ hi, hv i (by omega)]
  simp only [bacaSegmentTime, h0, h1, Option.bind_eq_bind, Option.some_bind, ← hp0, ← hp1,
    vsub_of_length_eq _ _ hlen, bacaPhases_valid sqrt hv v_max a_max j_max i hi,
    Option.pure_def, bacaCaps_acceleration_time_1, bacaCaps_acceleration_time_2,
    clamp_eq_max]
  rfl

theorem bacaSegmentTime_valid (sqrt : K → K) {d : Nat} {vs : List (Vertex K)}
    (hv : UniformPositions d vs) (v_max a_max j_max : K) (hvm : 0 < v_max)
    (i : Nat) (hi : i + 1 < vs.length) :
    bacaSegmentTime sqrt vs v_max a_max j_max i =
      some (bacaTime sqrt (entryCoefficient sqrt vs i) (exitCoefficient sqrt vs i)
        (distance sqrt (positionAt vs i) (positionAt vs (i + 1))) v_max a_max j_max) := by
  rw [bacaSegmentTime_raw sqrt hv v_max a_max j_max i hi, baca_cruise_eq _ _ _ hvm]
  rfl

theorem baca_some (sqrt : K → K) {d : Nat} {vs : List (Vertex K)}
    (h2 : 2 ≤ vs.length) (hv : UniformPositions d vs) (v_max a_max j_max : K) :
    ∃ l, estimateSegmentTimesBaca sqrt vs v_max a_max j_max = some l ∧
      l.length = vs.length - 1 ∧
      ∀ i, i < vs.length - 1 → l[i]? = bacaSegmentTime sqrt vs v_max a_max j_max i := by
  obtain ⟨l, hl⟩ := pushLoop_isSome (bacaSegmentTime sqrt vs v_max a_max j_max)
    (vs.length - 1)
    (fun i hi => by rw [bacaSegmentTime_raw sqrt hv v_max a_max j_max i (by omega)]; rfl)
  refine ⟨l, by simp [estimateSegmentTimesBaca, h2, hl], ?_⟩
  exact pushLoop_spec _ _ _ hl

theorem unitSquareVertices_valid : ValidVertices 3 (unitSquareVertices : List (Vertex K)) :=
  ⟨by simp [unitSquareVertices], by
    simp [unitSquareVertices, Vertex.getConstraint, List.lookup]⟩

/-- C7: on a valid vertex sequence with `vMax, aMax, jMax > 0`, the time
`estimateSegmentTimesBaca` returns for segment `i` of length `d` is
`max(0.01, cruise + min(c_entry*A, sqrt(d/aMax)) + min(c_exit*A, sqrt(d/aMax)))` with
`A = vMax/aMax + aMax/jMax`, `cruise` the cruise time, `c_entry` equal to `1` on the first
segment and to the turn coefficient at vertex `i` otherwise, `c_exit` equal to `1` on the
last segment and to the turn coefficient at vertex `i+1` otherwise; no jerk-phase time
enters the total. -/
theorem estimateSegmentTimesBaca_formula (d : Nat) (vs : List (Vertex ℝ))
    (vMax aMax jMax : ℝ) (hv : ValidVertices d vs)
    (hvMax : 0 < vMax) (haMax : 0 < aMax) (hjMax : 0 < jMax) :
    ∃ l, estimateSegmentTimesBaca Real.sqrt vs vMax aMax jMax = some l ∧
      l.length = vs.length - 1 ∧
      ∀ i, i < vs.length - 1 →
        l[i]? = some (max 0.01
          (bacaCruiseTime (distance Real.sqrt (positionAt vs i) (positionAt vs (i + 1)))
              vMax aMax
            + min ((if i = 0 then 1 else turnCoefficient Real.sqrt (positionAt vs (i - 1))
                      (positionAt vs i) (positionAt vs (i + 1)))
                    * (vMax / aMax + aMax / jMax))
                (Real.sqrt
                  (distance Real.sqrt (positionAt vs i) (positionAt vs (i + 1)) / aMax))
            + min ((if i = vs.length - 2 then 1 else turnCoefficient Real.sqrt
                      (positionAt vs i) (positionAt vs (i + 1)) (positionAt vs (i + 2)))
                    * (vMax / aMax + aMax / jMax))
                (Real.sqrt
                  (distance Real.sqrt (positionAt vs i) (positionAt vs (i + 1)) / aMax)))) := by
  obtain ⟨l, hl, hlen, hget⟩ :=
    baca_some Real.sqrt hv.1 (positionAt_length hv) vMax aMax jMax
  refine ⟨l, hl, hlen, fun i hi => ?_⟩
  rw [hget i hi, bacaSegmentTime_valid Real.sqrt (positionAt_length hv) vMax aMax jMax hvMax i
    (by omega)]
  rfl

/-- Witness for C7: the Baca formula on the unit square with all limits `1`. -/
theorem estimateSegmentTimesBaca_formula_witness :
    ∃ l, estimateSegmentTimesBaca Real.sqrt (unitSquareVertices : List (Vertex ℝ)) 1 1 1
        = some l ∧
      l.length = (unitSquareVertices : List (Vertex ℝ)).length - 1 ∧
      ∀ i, i < (unitSquareVertices : List (Vertex ℝ)).length - 1 →
        l[i]? = some (max 0.01
          (bacaCruiseTime (distance Real.sqrt (positionAt unitSquareVertices i)
              (positionAt unitSquareVertices (i + 1))) 1 1
            + min ((if i = 0 then 1 else turnCoefficient Real.sqrt
                      (positionAt unitSquareVertices (i - 1))
                      (positionAt unitSquareVertices i)
                      (positionAt unitSquareVertices (i + 1)))
                    * (1 / 1 + 1 / 1))
                (Real.sqrt
                  (distance Real.sqrt (positionAt unitSquareVertices i)
                    (positionAt unitSquareVertices (i + 1)) / 1))
            + min ((if i = (unitSquareVertices : List (Vertex ℝ)).length - 2 then 1
                    else turnCoefficient Real.sqrt
                      (positionAt unitSquareVertices i)
                      (positionAt unitSquareVertices (i + 1))
                      (positionAt unitSquareVertices (i + 2)))
                    * (1 / 1 + 1 / 1))
                (Real.sqrt
                  (distance Real.sqrt (positionAt unitSquareVertices i)
                    (positionAt unitSquareVertices (i + 1)) / 1)))) :=
  estimateSegmentTimesBaca_formula 3 unitSquareVertices 1 1 1 unitSquareVertices_valid
    one_pos one_pos one_pos

/-! ## Positivity, length and order of the results -/

theorem forall_pos_of_body (l : List K) (n : Nat) (body : Nat → Option K)
    (hlen : l.length = n) (h : ∀ i, i < n → l[i]? = body i)
    (hb : ∀ i t, i < n → body i = some t → 0 < t) : ∀ t ∈ l, 0 < t := by
  intro t ht
  obtain ⟨i, hi, rfl⟩ := List.getElem_of_mem ht
  have hin : i < n := hlen ▸ hi
  have := h i hin
  rw [List.getElem?_eq_getElem hi] at this
  exact hb i _ hin this.symm

theorem floor_pos_small (x : K) : 0 < max 0.01 x :=
  lt_of_lt_of_le (by norm_num) (le_max_left _ _)

theorem floor_pos_ramp (x : K) : 0 < max 0.1 x :=
  lt_of_lt_of_le (by norm_num) (le_max_left _ _)

/-- C1: on a vertex sequence of at least two vertices that all carry a position
constraint of the same dimension, with `vMax, aMax, jMax > 0`, each of the four estimators
returns durations and every returned duration is strictly positive. -/
theorem estimators_durations_positive (d : Nat) (vs : List (Vertex ℝ))
    (vMax aMax jMax timeFactor : ℝ) (hv : ValidVertices d vs)
    (hvMax : 0 < vMax) (haMax : 0 < aMax) (hjMax : 0 < jMax) :
    (∃ l, estimateSegmentTimes Real.sqrt vs vMax aMax jMax = some l ∧ ∀ t ∈ l, 0 < t) ∧
    (∃ l, estimateSegmentTimesEuclidean Real.sqrt vs vMax = some l ∧ ∀ t ∈ l, 0 < t) ∧
    (∃ l, estimateSegmentTimesVelocityRamp Real.sqrt vs vMax aMax timeFactor = some l ∧
      ∀ t ∈ l, 0 < t) ∧
    (∃ l, estimateSegmentTimesBaca Real.sqrt vs vMax aMax jMax = some l ∧
      ∀ t ∈ l, 0 < t) := by
  have hE : ∃ l, estimateSegmentTimesEuclidean Real.sqrt vs vMax = some l ∧
      ∀ t ∈ l, 0 < t := by
    obtain ⟨l, hl, hlen, hget⟩ :=
      euclidean_some Real.sqrt hv.1 (positionAt_length hv) vMax
    refine ⟨l, hl, forall_pos_of_body l _ _ hlen hget (fun i t hi ht => ?_)⟩
    rw [euclideanSegmentTime_valid Real.sqrt (positionAt_length hv) vMax i (by omega)] at ht
    rw [← Option.some.inj ht]
    exact floor_pos_small _
  refine ⟨hE, hE, ?_, ?_⟩
  · obtain ⟨l, hl, hlen, hget⟩ :=
      velocityRamp_some Real.sqrt hv.1 (positionAt_length hv) vMax aMax timeFactor
    refine ⟨l, hl, forall_pos_of_body l _ _ hlen hget (fun i t hi ht => ?_)⟩
    rw [velocityRampSegmentTime_valid Real.sqrt (positionAt_length hv) vMax aMax i (by omega)] at ht
    rw [← Option.some.inj ht]
    exact floor_pos_ramp _
  · obtain ⟨l, hl, hlen, hget⟩ :=
      baca_some Real.sqrt hv.1 (positionAt_length hv) vMax aMax jMax
    refine ⟨l, hl, forall_pos_of_body l _ _ hlen hget (fun i t hi ht => ?_)⟩
    rw [bacaSegmentTime_raw Real.sqrt (positionAt_length hv) vMax aMax jMax i (by omega)] at ht
    rw [← Option.some.inj ht]
    exact floor_pos_small _

/-- Witness for C1: the unit square with all limits `1`. -/
theorem estimators_durations_positive_witness :
    (∃ l, estimateSegmentTimes Real.sqrt (unitSquareVertices : List (Vertex ℝ)) 1 1 1
      = some l ∧ ∀ t ∈ l, 0 < t) ∧
    (∃ l, estimateSegmentTimesEuclidean Real.sqrt (unitSquareVertices : List (Vertex ℝ)) 1
      = some l ∧ ∀ t ∈ l, 0 < t) ∧
    (∃ l, estimateSegmentTimesVelocityRamp Real.sqrt
      (unitSquareVertices : List (Vertex ℝ)) 1 1 1 = some l ∧ ∀ t ∈ l, 0 < t) ∧
    (∃ l, estimateSegmentTimesBaca Real.sqrt (unitSquareVertices : List (Vertex ℝ)) 1 1 1
      = some l ∧ ∀ t ∈ l, 0 < t) :=
  estimators_durations_positive 3 unitSquareVertices 1 1 1 1 unitSquareVertices_valid
    one_pos one_pos one_pos

/-- C2: on a vertex sequence of `n >= 2` vertices that all carry a position constraint
(of one dimension), each of the four estimators returns exactly `n - 1` durations, and the
`i`-th duration is the value its loop body computes in iteration `i`, for the vertex
pair `(i, i+1)`. -/
theorem estimators_one_duration_per_pair (d : Nat) (vs : List (Vertex ℝ))
    (vMax aMax jMax timeFactor : ℝ) (hv : ValidVertices d vs) :
    (∃ l, estimateSegmentTimes Real.sqrt vs vMax aMax jMax = some l ∧
      l.length = vs.length - 1 ∧
      ∀ i, i < vs.length - 1 →
        ∃ t, euclideanSegmentTime Real.sqrt vs vMax i = some t ∧ l[i]? = some t) ∧
    (∃ l, estimateSegmentTimesEuclidean Real.sqrt vs vMax = some l ∧
      l.length = vs.length - 1 ∧
      ∀ i, i < vs.length - 1 →
        ∃ t, euclideanSegmentTime Real.sqrt vs vMax i = some t ∧ l[i]? = some t) ∧
    (∃ l, estimateSegmentTimesVelocityRamp Real.sqrt vs vMax aMax timeFactor = some l ∧
      l.length = vs.length - 1 ∧
      ∀ i, i < vs.length - 1 →
        ∃ t, velocityRampSegmentTime Real.sqrt vs vMax aMax i = some t ∧ l[i]? = some t) ∧
    (∃ l, estimateSegmentTimesBaca Real.sqrt vs vMax aMax jMax = some l ∧
      l.length = vs.length - 1 ∧
      ∀ i, i < vs.length - 1 →
        ∃ t, bacaSegmentTime Real.sqrt vs vMax aMax jMax i = some t ∧ l[i]? = some t) := by
  have hE : ∃ l, estimateSegmentTimesEuclidean Real.sqrt vs vMax = some l ∧
      l.length = vs.length - 1 ∧
      ∀ i, i < vs.length - 1 →
        ∃ t, euclideanSegmentTime Real.sqrt vs vMax i = some t ∧ l[i]? = some t := by
    obtain ⟨l, hl, hlen, hget⟩ :=
      euclidean_some Real.sqrt hv.1 (positionAt_length hv) vMax
    refine ⟨l, hl, hlen, fun i hi => ?_⟩
    have hb := euclideanSegmentTime_valid Real.sqrt (positionAt_length hv) vMax i (by omega)
    exact ⟨_, hb, by rw [hget i hi, hb]⟩
  refine ⟨hE, hE, ?_, ?_⟩
  · obtain ⟨l, hl, hlen, hget⟩ :=
      velocityRamp_some Real.sqrt hv.1 (positionAt_length hv) vMax aMax timeFactor
    refine ⟨l, hl, hlen, fun i hi => ?_⟩
    have hb := velocityRampSegmentTime_valid Real.sqrt (positionAt_length hv) vMax aMax i (by omega)
    exact ⟨_, hb, by rw [hget i hi, hb]⟩
  · obtain ⟨l, hl, hlen, hget⟩ :=
      baca_some Real.sqrt hv.1 (positionAt_length hv) vMax aMax jMax
    refine ⟨l, hl, hlen, fun i hi => ?_⟩
    have hb := bacaSegmentTime_raw Real.sqrt (positionAt_length hv) vMax aMax jMax i (by omega)
    exact ⟨_, hb, by rw [hget i hi, hb]⟩

/-- Witness for C2: the unit square with all limits `1`. -/
theorem estimators_one_duration_per_pair_witness :
    (∃ l, estimateSegmentTimes Real.sqrt (unitSquareVertices : List (Vertex ℝ)) 1 1 1
        = some l ∧
      l.length = (unitSquareVertices : List (Vertex ℝ)).length - 1 ∧
      ∀ i, i < (unitSquareVertices : List (Vertex ℝ)).length - 1 →
        ∃ t, euclideanSegmentTime Real.sqrt unitSquareVertices 1 i = some t ∧
          l[i]? = some t) ∧
    (∃ l, estimateSegmentTimesEuclidean Real.sqrt (unitSquareVertices : List (Vertex ℝ)) 1
        = some l ∧
      l.length = (unitSquareVertices : List (Vertex ℝ)).length - 1 ∧
      ∀ i, i < (unitSquareVertices : List (Vertex ℝ)).length - 1 →
        ∃ t, euclideanSegmentTime Real.sqrt unitSquareVertices 1 i = some t ∧
          l[i]? = some t) ∧
    (∃ l, estimateSegmentTimesVelocityRamp Real.sqrt
        (unitSquareVertices : List (Vertex ℝ)) 1 1 1 = some l ∧
      l.length = (unitSquareVertices : List (Vertex ℝ)).length - 1 ∧
      ∀ i, i < (unitSquareVertices : List (Vertex ℝ)).length - 1 →
        ∃ t, velocityRampSegmentTime Real.sqrt unitSquareVertices 1 1 i = some t ∧
          l[i]? = some t) ∧
    (∃ l, estimateSegmentTimesBaca Real.sqrt (unitSquareVertices : List (Vertex ℝ)) 1 1 1
        = some l ∧
      l.length = (unitSquareVertices : List (Vertex ℝ)).length - 1 ∧
      ∀ i, i < (unitSquareVertices : List (Vertex ℝ)).length - 1 →
        ∃ t, bacaSegmentTime Real.sqrt unitSquareVertices 1 1 1 i = some t ∧
          l[i]? = some t) :=
  estimators_one_duration_per_pair 3 unitSquareVertices 1 1 1 1 unitSquareVertices_valid

/-! ## The velocity-ramp time model -/

/-- C5: on a valid vertex sequence with `vMax > 0` and `aMax > 0`,
`estimateSegmentTimesVelocityRamp` returns for each segment `i` the value
`max(0.1, T(d_i))`, where `d_i = |p_{i+1} - p_i|` and `T(d) = 2*sqrt(d/aMax)` if
`d < 2*accDist`, `T(d) = 2*accTime + (d - 2*accDist)/vMax` otherwise, with
`accTime = vMax/aMax` and `accDist = 0.5*vMax*accTime`. -/
theorem estimateSegmentTimesVelocityRamp_formula (d : Nat) (vs : List (Vertex ℝ))
    (vMax aMax timeFactor : ℝ) (hv : ValidVertices d vs)
    (hvMax : 0 < vMax) (haMax : 0 < aMax) :
    (∃ l, estimateSegmentTimesVelocityRamp Real.sqrt vs vMax aMax timeFactor = some l ∧
      l.length = vs.length - 1 ∧
      ∀ i, i < vs.length - 1 →
        l[i]? = some (max 0.1 (velocityRampTime Real.sqrt
          (distance Real.sqrt (positionAt vs i) (positionAt vs (i + 1))) vMax aMax))) ∧
    ∀ x : ℝ, velocityRampTime Real.sqrt x vMax aMax =
      if x < 2 * (0.5 * vMax * (vMax / aMax)) then 2 * Real.sqrt (x / aMax)
      else 2 * (vMax / aMax) + (x - 2 * (0.5 * vMax * (vMax / aMax))) / vMax := by
  refine ⟨?_, fun x => rfl⟩
  obtain ⟨l, hl, hlen, hget⟩ :=
    velocityRamp_some Real.sqrt hv.1 (positionAt_length hv) vMax aMax timeFactor
  refine ⟨l, hl, hlen, fun i hi => ?_⟩
  rw [hget i hi, velocityRampSegmentTime_valid Real.sqrt (positionAt_length hv)
    vMax aMax i (by omega)]

/-- Witness for C5: the unit square with `vMax = aMax = 1`. -/
theorem estimateSegmentTimesVelocityRamp_formula_witness :
    (∃ l, estimateSegmentTimesVelocityRamp Real.sqrt
        (unitSquareVertices : List (Vertex ℝ)) 1 1 1 = some l ∧
      l.length = (unitSquareVertices : List (Vertex ℝ)).length - 1 ∧
      ∀ i, i < (unitSquareVertices : List (Vertex ℝ)).length - 1 →
        l[i]? = some (max 0.1 (velocityRampTime Real.sqrt
          (distance Real.sqrt (positionAt unitSquareVertices i)
            (positionAt unitSquareVertices (i + 1))) 1 1))) ∧
    ∀ x : ℝ, velocityRampTime Real.sqrt x 1 1 =
      if x < 2 * (0.5 * 1 * (1 / 1)) then 2 * Real.sqrt (x / 1)
      else 2 * ((1 : ℝ) / 1) + (x - 2 * (0.5 * 1 * (1 / 1))) / 1 :=
  estimateSegmentTimesVelocityRamp_formula 3 unitSquareVertices 1 1 1
    unitSquareVertices_valid one_pos one_pos

theorem ramp_branches_agree (vMax aMax : ℝ) (hvMax : 0 < vMax) (haMax : 0 < aMax) :
    rampTriangularTime Real.sqrt (vMax ^ 2 / aMax) aMax =
      rampTrapezoidalTime (vMax ^ 2 / aMax) vMax aMax := by
  have hsq : vMax ^ 2 / aMax / aMax = (vMax / aMax) ^ 2 := by
    field_simp
    ring
  have hnn : 0 ≤ vMax / aMax := (div_pos hvMax haMax).le
  unfold rampTriangularTime rampTrapezoidalTime
  rw [hsq, Real.sqrt_sq hnn]
  field_simp
  ring

theorem velocityRampTime_continuous (vMax aMax : ℝ) (hvMax : 0 < vMax) (haMax : 0 < aMax) :
    Continuous (fun x => velocityRampTime Real.sqrt x vMax aMax) := by
  have hb : 2 * (0.5 * vMax * (vMax / aMax)) = vMax ^ 2 / aMax := by
    field_simp
    ring
  have hfun : (fun x => velocityRampTime Real.sqrt x vMax aMax) =
      fun x => if vMax ^ 2 / aMax ≤ x then rampTrapezoidalTime x vMax aMax
        else rampTriangularTime Real.sqrt x aMax := by
    funext x
    unfold velocityRampTime
    rw [hb]
    by_cases h : x < vMax ^ 2 / aMax
    · rw [if_pos h, if_neg (not_le.mpr h)]
    · rw [if_neg h, if_pos (not_lt.mp h)]
  rw [hfun]
  refine Continuous.if_le ?_ ?_ continuous_const continuous_id ?_
  · unfold rampTrapezoidalTime
    fun_prop
  · unfold rampTriangularTime
    exact continuous_const.mul (Real.continuous_sqrt.comp (continuous_id.div_const aMax))
  · intro x hx
    simp only [id] at hx
    rw [← hx]
    exact (ramp_branches_agree vMax aMax hvMax haMax).symm

/-- C6: for `vMax > 0` and `aMax > 0`, at the boundary distance
`d = 2*vMax^2/(2*aMax) = vMax^2/aMax` (the threshold `2*accDist` of the code) the two
branch formulas of `computeTimeVelocityRamp` agree,
`2*sqrt(d/aMax) = 2*(vMax/aMax) + (d - vMax^2/aMax)/vMax`; the function returns that
common value there, and the time model is continuous in the distance. -/
theorem computeTimeVelocityRamp_boundary (vMax aMax : ℝ)
    (hvMax : 0 < vMax) (haMax : 0 < aMax) :
    2 * vMax ^ 2 / (2 * aMax) = vMax ^ 2 / aMax ∧
    vMax ^ 2 / aMax = 2 * (0.5 * vMax * (vMax / aMax)) ∧
    2 * Real.sqrt (vMax ^ 2 / aMax / aMax) =
      2 * (vMax / aMax) + (vMax ^ 2 / aMax - vMax ^ 2 / aMax) / vMax ∧
    rampTriangularTime Real.sqrt (vMax ^ 2 / aMax) aMax =
      rampTrapezoidalTime (vMax ^ 2 / aMax) vMax aMax ∧
    (∀ start goal : List ℝ, start.length = goal.length →
      distance Real.sqrt start goal = vMax ^ 2 / aMax →
      computeTimeVelocityRamp Real.sqrt start goal vMax aMax =
        some (rampTriangularTime Real.sqrt (vMax ^ 2 / aMax) aMax)) ∧
    Continuous (fun x => velocityRampTime Real.sqrt x vMax aMax) := by
  have hb : vMax ^ 2 / aMax = 2 * (0.5 * vMax * (vMax / aMax)) := by
    field_simp
    ring
  have hagree := ramp_branches_agree vMax aMax hvMax haMax
  refine ⟨?_, hb, ?_, hagree, ?_, velocityRampTime_continuous vMax aMax hvMax haMax⟩
  · field_simp
    ring
  · have h := hagree
    unfold rampTriangularTime rampTrapezoidalTime at h
    rw [h, ← hb]
  · intro start goal hlen hd
    rw [computeTimeVelocityRamp_of_length_eq Real.sqrt start goal vMax aMax hlen, hd]
    unfold velocityRampTime
    rw [← hb, if_neg (lt_irrefl _), hagree]

/-- Witness for C6: `vMax = aMax = 1`, boundary distance `1`, reached between the
1-dimensional positions `0` and `1`. -/
theorem computeTimeVelocityRamp_boundary_witness :
    2 * Real.sqrt ((1 : ℝ) ^ 2 / 1 / 1) =
      2 * ((1 : ℝ) / 1) + ((1 : ℝ) ^ 2 / 1 - 1 ^ 2 / 1) / 1 ∧
    rampTriangularTime Real.sqrt ((1 : ℝ) ^ 2 / 1) 1 =
      rampTrapezoidalTime ((1 : ℝ) ^ 2 / 1) 1 1 ∧
    computeTimeVelocityRamp Real.sqrt [0] [1] 1 1 =
      some (rampTriangularTime Real.sqrt ((1 : ℝ) ^ 2 / 1) 1) ∧
    Continuous (fun x => velocityRampTime Real.sqrt x 1 1) :=
  ⟨(computeTimeVelocityRamp_boundary 1 1 one_pos one_pos).2.2.1,
    (computeTimeVelocityRamp_boundary 1 1 one_pos one_pos).2.2.2.1,
    (computeTimeVelocityRamp_boundary 1 1 one_pos one_pos).2.2.2.2.1 [0] [1] rfl
      (by simp [distance, norm, squaredNorm]),
    (computeTimeVelocityRamp_boundary 1 1 one_pos one_pos).2.2.2.2.2⟩

/-! ## Dot products of normalised vectors -/

theorem squaredNorm_nonneg (v : List K) : 0 ≤ squaredNorm v := by
  induction v with
  | nil => simp [squaredNorm]
  | cons x xs ih =>
    simp only [squaredNorm, List.map_cons, List.sum_cons] at ih ⊢
    exact add_nonneg (mul_self_nonneg x) ih

theorem squaredNorm_map_div (v : List K) (c : K) :
    squaredNorm (v.map (fun x => x / c)) = squaredNorm v / (c * c) := by
  induction v with
  | nil => simp [squaredNorm]
  | cons x xs ih =>
    simp only [squaredNorm, List.map_cons, List.sum_cons] at ih ⊢
    rw [ih, add_div, div_mul_div_comm]

theorem squaredNorm_map_mul (v : List K) (k : K) :
    squaredNorm (v.map (fun x => k * x)) = k * k * squaredNorm v := by
  induction v with
  | nil => simp [squaredNorm]
  | cons x xs ih =>
    simp only [squaredNorm, List.map_cons, List.sum_cons] at ih ⊢
    rw [ih]
    ring

theorem dotProduct_map_div (u w : List K) (a b : K) :
    dotProduct (u.map (fun x => x / a)) (w.map (fun x => x / b)) =
      dotProduct u w / (a * b) := by
  induction u generalizing w with
  | nil => simp [dotProduct]
  | cons x xs ih =>
    cases w with
    | nil => simp [dotProduct]
    | cons y ys =>
      have h := ih ys
      simp only [dotProduct, List.map_cons, List.zipWith_cons_cons, List.sum_cons] at h ⊢
      rw [h, add_div, div_mul_div_comm]

theorem dotProduct_map_mul (u : List K) (k : K) :
    dotProduct u (u.map (fun x => k * x)) = k * squaredNorm u := by
  induction u with
  | nil => simp [dotProduct, squaredNorm]
  | cons x xs ih =>
    simp only [dotProduct, squaredNorm, List.map_cons, List.zipWith_cons_cons,
      List.sum_cons] at ih ⊢
    rw [ih]
    ring

theorem two_dotProduct_le (u w : List K) :
    2 * dotProduct u w ≤ squaredNorm u + squaredNorm w := by
  induction u generalizing w with
  | nil =>
    simp only [dotProduct, List.zipWith_nil_left, List.sum_nil, mul_zero]
    exact add_nonneg (squaredNorm_nonneg _) (squaredNorm_nonneg _)
  | cons x xs ih =>
    cases w with
    | nil =>
      simp only [dotProduct, List.zipWith_nil_right, List.sum_nil, mul_zero]
      exact add_nonneg (squaredNorm_nonneg _) (squaredNorm_nonneg _)
    | cons y ys =>
      have h := ih ys
      simp only [dotProduct, squaredNorm, List.map_cons, List.zipWith_cons_cons,
        List.sum_cons] at h ⊢
      nlinarith [sq_nonneg (x - y)]

theorem squaredNorm_normalize_le_one (v : List ℝ) :
    squaredNorm (normalize Real.sqrt v) ≤ 1 := by
  unfold normalize
  simp only
  split
  · rename_i hpos
    rw [squaredNorm_map_div, Real.mul_self_sqrt hpos.le, div_self hpos.ne']
  · rename_i hnp
    linarith [not_lt.mp hnp]

theorem dotProduct_normalize_le_one (u w : List ℝ) :
    dotProduct (normalize Real.sqrt u) (normalize Real.sqrt w) ≤ 1 := by
  have h := two_dotProduct_le (normalize Real.sqrt u) (normalize Real.sqrt w)
  have hu := squaredNorm_normalize_le_one u
  have hw := squaredNorm_normalize_le_one w
  linarith

theorem turnCoefficient_mem_unit (pre mid post : List ℝ) :
    0 ≤ turnCoefficient Real.sqrt pre mid post ∧
      turnCoefficient Real.sqrt pre mid post ≤ 1 := by
  unfold turnCoefficient
  have h := dotProduct_normalize_le_one (List.zipWith (fun x y => x - y) mid pre)
    (List.zipWith (fun x y => x - y) post mid)
  constructor
  · have : max 0 (dotProduct (normalize Real.sqrt (List.zipWith (fun x y => x - y) mid pre))
        (normalize Real.sqrt (List.zipWith (fun x y => x - y) post mid))) ≤ 1 :=
      max_le zero_le_one h
    linarith
  · have := le_max_left (0 : ℝ) (dotProduct
      (normalize Real.sqrt (List.zipWith (fun x y => x - y) mid pre))
      (normalize Real.sqrt (List.zipWith (fun x y => x - y) post mid)))
    linarith

theorem dotProduct_normalize_multiple (u : List ℝ) (k : ℝ) (hu : 0 < squaredNorm u)
    (hk : k ≠ 0) :
    dotProduct (normalize Real.sqrt u) (normalize Real.sqrt (u.map (fun x => k * x))) =
      k / |k| := by
  have hw : 0 < squaredNorm (u.map (fun x => k * x)) := by
    rw [squaredNorm_map_mul]
    exact mul_pos (mul_self_pos.mpr hk) hu
  have hsq : Real.sqrt (k * k * squaredNorm u) = |k| * Real.sqrt (squaredNorm u) := by
    rw [Real.sqrt_mul (mul_self_nonneg k), Real.sqrt_mul_self_eq_abs]
  have hs : Real.sqrt (squaredNorm u) * Real.sqrt (squaredNorm u) = squaredNorm u :=
    Real.mul_self_sqrt hu.le
  have hs0 : Real.sqrt (squaredNorm u) ≠ 0 := (Real.sqrt_pos.mpr hu).ne'
  have hk0 : |k| ≠ 0 := abs_ne_zero.mpr hk
  unfold normalize
  simp only [hu, hw, if_true]
  rw [dotProduct_map_div, dotProduct_map_mul, squaredNorm_map_mul, hsq]
  rw [show Real.sqrt (squaredNorm u) * (|k| * Real.sqrt (squaredNorm u)) =
    |k| * (Real.sqrt (squaredNorm u) * Real.sqrt (squaredNorm u)) by ring, hs]
  field_simp
  ring

theorem dotProduct_normalize_zero (u : List ℝ) (k : ℝ) (hu : ¬ 0 < squaredNorm u) :
    dotProduct (normalize Real.sqrt u) (normalize Real.sqrt (u.map (fun x => k * x))) = 0 := by
  have hz : squaredNorm u = 0 := le_antisymm (not_lt.mp hu) (squaredNorm_nonneg u)
  have hw : ¬ 0 < squaredNorm (u.map (fun x => k * x)) := by
    rw [squaredNorm_map_mul, hz, mul_zero]
    exact lt_irrefl 0
  unfold normalize
  simp only [hu, hw, if_false]
  rw [dotProduct_map_mul, hz, mul_zero]

theorem squaredNorm_sub_pos (a b : List K) (hlen : a.length = b.length) (hne : a ≠ b) :
    0 < squaredNorm (List.zipWith (fun x y => x - y) b a) := by
  induction a generalizing b with
  | nil =>
    cases b with
    | nil => exact absurd rfl hne
    | cons y ys => simp at hlen
  | cons x xs ih =>
    cases b with
    | nil => simp at hlen
    | cons y ys =>
      simp only [List.length_cons, add_left_inj] at hlen
      simp only [squaredNorm, List.zipWith_cons_cons, List.map_cons, List.sum_cons]
      by_cases hxy : x = y
      · subst hxy
        have hne2 : xs ≠ ys := fun h => hne (by rw [h])
        have := ih ys hlen hne2
        simp only [squaredNorm] at this
        simpa using this
      · have h1 : 0 < (y - x) * (y - x) := mul_self_pos.mpr (sub_ne_zero.mpr (Ne.symm hxy))
        have h2 := squaredNorm_nonneg (List.zipWith (fun x y => x - y) ys xs)
        simp only [squaredNorm] at h2
        exact add_pos_of_pos_of_nonneg h1 h2

theorem turnCoefficient_straight (a b c : List ℝ) (k : ℝ) (hab : a.length = b.length)
    (hne : a ≠ b) (hk : 0 < k)
    (hdir : List.zipWith (fun x y => x - y) c b =
      (List.zipWith (fun x y => x - y) b a).map (fun x => k * x)) :
    turnCoefficient Real.sqrt a b c = 0 := by
  unfold turnCoefficient
  rw [hdir, dotProduct_normalize_multiple _ k (squaredNorm_sub_pos a b hab hne) hk.ne',
    abs_of_pos hk, div_self hk.ne']
  simp

theorem turnCoefficient_reversal (a b c : List ℝ) (k : ℝ) (hk : k < 0)
    (hdir : List.zipWith (fun x y => x - y) c b =
      (List.zipWith (fun x y => x - y) b a).map (fun x => k * x)) :
    turnCoefficient Real.sqrt a b c = 1 := by
  unfold turnCoefficient
  rw [hdir]
  by_cases hu : 0 < squaredNorm (List.zipWith (fun x y => x - y) b a)
  · rw [dotProduct_normalize_multiple _ k hu hk.ne, abs_of_neg hk, div_neg, div_self hk.ne]
    simp
  · rw [dotProduct_normalize_zero _ k hu]
    simp

/-- C9: the turn coefficient the Baca estimator computes at an interior vertex `b`
between `a` and `c` is `1 - max(0, dot(u, w))` with `u`, `w` the normalised incoming and
outgoing direction vectors; it lies in `[0, 1]` for all positions; it is `0` when the
outgoing direction is a positive multiple of the (non-zero) incoming one and `1` when it
is a negative multiple. -/
theorem turnCoeff_range_and_extremes :
    (∀ a b c : List ℝ, a.length = b.length → b.length = c.length →
      turnCoeff Real.sqrt a b c =
          some (1 - max 0 (dotProduct
            (normalize Real.sqrt (List.zipWith (fun x y => x - y) b a))
            (normalize Real.sqrt (List.zipWith (fun x y => x - y) c b)))) ∧
        ∃ t, turnCoeff Real.sqrt a b c = some t ∧ 0 ≤ t ∧ t ≤ 1) ∧
    (∀ (a b c : List ℝ) (k : ℝ), a.length = b.length → b.length = c.length → a ≠ b →
      0 < k →
      List.zipWith (fun x y => x - y) c b =
        (List.zipWith (fun x y => x - y) b a).map (fun x => k * x) →
      turnCoeff Real.sqrt a b c = some 0) ∧
    (∀ (a b c : List ℝ) (k : ℝ), a.length = b.length → b.length = c.length →
      k < 0 →
      List.zipWith (fun x y => x - y) c b =
        (List.zipWith (fun x y => x - y) b a).map (fun x => k * x) →
      turnCoeff Real.sqrt a b c = some 1) := by
  refine ⟨?_, ?_, ?_⟩
  · intro a b c hab hbc
    have h := turnCoeff_of_length_eq Real.sqrt a b c hab hbc
    exact ⟨h, _, h, turnCoefficient_mem_unit a b c⟩
  · intro a b c k hab hbc hne hk hdir
    rw [turnCoeff_of_length_eq Real.sqrt a b c hab hbc,
      turnCoefficient_straight a b c k hab hne hk hdir]
  · intro a b c k hab hbc hk hdir
    rw [turnCoeff_of_length_eq Real.sqrt a b c hab hbc,
      turnCoefficient_reversal a b c k hk hdir]

/-- Witness for C9: on the line, `0, 1, 2` continues straight and `0, 1, 0` reverses. -/
theorem turnCoeff_range_and_extremes_witness :
    (∃ t, turnCoeff Real.sqrt [0] [1] [2] = some t ∧ 0 ≤ t ∧ t ≤ 1) ∧
    turnCoeff Real.sqrt [0] [1] [2] = some 0 ∧
    turnCoeff Real.sqrt [0] [1] [0] = some 1 :=
  ⟨(turnCoeff_range_and_extremes.1 [0] [1] [2] rfl rfl).2,
    turnCoeff_range_and_extremes.2.1 [0] [1] [2] 1 rfl rfl (by simp) one_pos
      (by norm_num),
    turnCoeff_range_and_extremes.2.2 [0] [1] [0] (-1) rfl rfl (by norm_num)
      (by norm_num)⟩

/-! ## A straight three-vertex path -/

theorem validVertices_three (v0 v1 v2 : Vertex K) (p0 p1 p2 : List K)
    (h0 : v0.getConstraint POSITION = some p0) (h1 : v1.getConstraint POSITION = some p1)
    (h2 : v2.getConstraint POSITION = some p2)
    (hl01 : p0.length = p1.length) (hl12 : p1.length = p2.length) :
    ValidVertices p0.length [v0, v1, v2] := by
  refine ⟨by simp, ?_⟩
  intro v hmem
  simp only [List.mem_cons, List.mem_singleton, List.not_mem_nil, or_false] at hmem
  rcases hmem with rfl | rfl | rfl
  · simp [h0]
  · simp [h1, hl01]
  · simp [h2, hl01, hl12]

theorem min_zero_mul_sqrt (A x : ℝ) : min (0 * A) (Real.sqrt x) = 0 := by
  rw [zero_mul]
  exact min_eq_left (Real.sqrt_nonneg x)

/-- C8: on a straight 3-vertex path (`p1 - p0` non-zero, `p2 - p1` a positive multiple of
it) with `vMax, aMax, jMax > 0`, `estimateSegmentTimesBaca` uses exit coefficient `0` for
segment 0 and entry coefficient `0` for segment 1 (and coefficient `1` at the two open
ends), so each of the two segment times is
`max(0.01, cruise(d_i) + min(vMax/aMax + aMax/jMax, sqrt(d_i/aMax)))`. -/
theorem estimateSegmentTimesBaca_straight (v0 v1 v2 : Vertex ℝ) (p0 p1 p2 : List ℝ)
    (k vMax aMax jMax : ℝ)
    (h0 : v0.getConstraint POSITION = some p0) (h1 : v1.getConstraint POSITION = some p1)
    (h2 : v2.getConstraint POSITION = some p2)
    (hl01 : p0.length = p1.length) (hl12 : p1.length = p2.length)
    (hne : p0 ≠ p1) (hk : 0 < k)
    (hdir : List.zipWith (fun x y => x - y) p2 p1 =
      (List.zipWith (fun x y => x - y) p1 p0).map (fun x => k * x))
    (hvMax : 0 < vMax) (haMax : 0 < aMax) (hjMax : 0 < jMax) :
    (∃ s, bacaPhases Real.sqrt [v0, v1, v2] vMax aMax jMax 0 p0 p1 = some s ∧
      s.acc_1_coeff = 1 ∧ s.acc_2_coeff = 0) ∧
    (∃ s, bacaPhases Real.sqrt [v0, v1, v2] vMax aMax jMax 1 p1 p2 = some s ∧
      s.acc_1_coeff = 0 ∧ s.acc_2_coeff = 1) ∧
    estimateSegmentTimesBaca Real.sqrt [v0, v1, v2] vMax aMax jMax =
      some [max 0.01 (bacaCruiseTime (distance Real.sqrt p0 p1) vMax aMax
              + min (vMax / aMax + aMax / jMax)
                  (Real.sqrt (distance Real.sqrt p0 p1 / aMax))),
            max 0.01 (bacaCruiseTime (distance Real.sqrt p1 p2) vMax aMax
              + min (vMax / aMax + aMax / jMax)
                  (Real.sqrt (distance Real.sqrt p1 p2 / aMax)))] := by
  have hv := validVertices_three v0 v1 v2 p0 p1 p2 h0 h1 h2 hl01 hl12
  have hq0 : positionAt [v0, v1, v2] 0 = p0 := by
    simp [positionAt, Vertex.positionOrEmpty, h0]
  have hq1 : positionAt [v0, v1, v2] 1 = p1 := by
    simp [positionAt, Vertex.positionOrEmpty, h1]
  have hq2 : positionAt [v0, v1, v2] 2 = p2 := by
    simp [positionAt, Vertex.positionOrEmpty, h2]
  have htc := turnCoefficient_straight p0 p1 p2 k hl01 hne hk hdir
  have hen0 : entryCoefficient Real.sqrt [v0, v1, v2] 0 = 1 := by simp [entryCoefficient]
  have hex0 : exitCoefficient Real.sqrt [v0, v1, v2] 0 = 0 := by
    simp [exitCoefficient, hq0, hq1, hq2, htc]
  have hen1 : entryCoefficient Real.sqrt [v0, v1, v2] 1 = 0 := by
    simp [entryCoefficient, hq0, hq1, hq2, htc]
  have hex1 : exitCoefficient Real.sqrt [v0, v1, v2] 1 = 1 := by simp [exitCoefficient]
  have hph0 := bacaPhases_valid Real.sqrt (positionAt_length hv) vMax aMax jMax 0 (by simp)
  have hph1 := bacaPhases_valid Real.sqrt (positionAt_length hv) vMax aMax jMax 1 (by simp)
  have hb0 := bacaSegmentTime_valid Real.sqrt (positionAt_length hv)
    vMax aMax jMax hvMax 0 (by simp)
  have hb1 := bacaSegmentTime_valid Real.sqrt (positionAt_length hv)
    vMax aMax jMax hvMax 1 (by simp)
  simp only [zero_add, Nat.reduceAdd, hq0, hq1, hq2, hen0, hex0, hen1, hex1]
    at hph0 hph1 hb0 hb1
  refine ⟨⟨_, hph0, rfl, rfl⟩, ⟨_, hph1, rfl, rfl⟩, ?_⟩
  simp only [estimateSegmentTimesBaca, List.length_cons, List.length_nil, Nat.reduceAdd,
    Nat.reduceLeDiff, if_true, Nat.add_one_sub_one, pushLoop, hb0, hb1, Option.bind_eq_bind,
    Option.some_bind, Option.pure_def, List.nil_append, List.cons_append, bacaTime,
    min_zero_mul_sqrt, one_mul, add_zero, zero_add]

/-- Witness for C8: the straight path `0, 1, 2` on the line with all limits `1`. -/
theorem estimateSegmentTimesBaca_straight_witness :
    (∃ s, bacaPhases Real.sqrt (straightLineVertices : List (Vertex ℝ)) 1 1 1 0 [0] [1]
        = some s ∧ s.acc_1_coeff = 1 ∧ s.acc_2_coeff = 0) ∧
    (∃ s, bacaPhases Real.sqrt (straightLineVertices : List (Vertex ℝ)) 1 1 1 1 [1] [2]
        = some s ∧ s.acc_1_coeff = 0 ∧ s.acc_2_coeff = 1) ∧
    estimateSegmentTimesBaca Real.sqrt (straightLineVertices : List (Vertex ℝ)) 1 1 1 =
      some [max 0.01 (bacaCruiseTime (distance Real.sqrt [0] [1]) 1 1
              + min (1 / 1 + 1 / 1) (Real.sqrt (distance Real.sqrt [0] [1] / 1))),
            max 0.01 (bacaCruiseTime (distance Real.sqrt [1] [2]) 1 1
              + min (1 / 1 + 1 / 1) (Real.sqrt (distance Real.sqrt [1] [2] / 1)))] :=
  estimateSegmentTimesBaca_straight ⟨1, [(POSITION, [0])]⟩ ⟨1, [(POSITION, [1])]⟩
    ⟨1, [(POSITION, [2])]⟩ [0] [1] [2] 1 1 1 1
    (by simp [Vertex.getConstraint, List.lookup])
    (by simp [Vertex.getConstraint, List.lookup])
    (by simp [Vertex.getConstraint, List.lookup])
    rfl rfl (by simp) one_pos (by norm_num) one_pos one_pos one_pos

/-! ## Vertices without a position constraint -/

theorem uniform_of_no_mismatch (vs : List (Vertex K)) (h : ¬ PositionLengthMismatch vs) :
    UniformPositions (positionAt vs 0).length vs := by
  intro i
  induction i with
  | zero => intro _; rfl
  | succ n ih =>
    intro hn
    by_contra hne
    exact h ⟨n, hn, fun heq => hne (by rw [← heq]; exact ih (by omega))⟩

theorem computeTimeVelocityRamp_eq_none (sqrt : K → K) (start goal : List K)
    (v_max a_max : K) (h : start.length ≠ goal.length) :
    computeTimeVelocityRamp sqrt start goal v_max a_max = none := by
  simp [computeTimeVelocityRamp, (vsub_eq_none_iff start goal).mpr h]

theorem euclideanSegmentTime_eq_none (sqrt : K → K) (vs : List (Vertex K)) (v_max : K)
    (i : Nat) (hi : i + 1 < vs.length)
    (h : (positionAt vs i).length ≠ (positionAt vs (i + 1)).length) :
    euclideanSegmentTime sqrt vs v_max i = none := by
  rw [euclideanSegmentTime_eq sqrt vs v_max i hi, (vsub_eq_none_iff _ _).mpr (Ne.symm h)]
  rfl

theorem velocityRampSegmentTime_eq_none (sqrt : K → K) (vs : List (Vertex K))
    (v_max a_max : K) (i : Nat) (hi : i + 1 < vs.length)
    (h : (positionAt vs i).length ≠ (positionAt vs (i + 1)).length) :
    velocityRampSegmentTime sqrt vs v_max a_max i = none := by
  rw [velocityRampSegmentTime_eq sqrt vs v_max a_max i hi,
    computeTimeVelocityRamp_eq_none sqrt _ _ v_max a_max h]
  rfl

theorem bacaSegmentTime_eq_none (sqrt : K → K) (vs : List (Vertex K))
    (v_max a_max j_max : K) (i : Nat) (hi : i + 1 < vs.length)
    (h : (positionAt vs i).length ≠ (positionAt vs (i + 1)).length) :
    bacaSegmentTime sqrt vs v_max a_max j_max i = none := by
  have h0 : vs[i]? = some vs[i] := List.getElem?_eq_getElem (by omega)
  have h1 : vs[i + 1]? = some vs[i + 1] := List.getElem?_eq_getElem hi
  have hp0 := positionAt_of_getElem? vs i _ h0
  have hp1 := positionAt_of_getElem? vs (i + 1) _ h1
  simp only [bacaSegmentTime, h0, h1, Option.bind_eq_bind, Option.some_bind, ← hp0, ← hp1,
    (vsub_eq_none_iff _ _).mpr (Ne.symm h), Option.none_bind]

theorem loop_none_iff_mismatch (vs : List (Vertex K)) (body : Nat → Option K)
    (h2 : 2 ≤ vs.length)
    (hnone : ∀ i, i + 1 < vs.length →
      (positionAt vs i).length ≠ (positionAt vs (i + 1)).length → body i = none)
    (hsome : ∀ d, UniformPositions d vs → ∃ l, pushLoop body (vs.length - 1) = some l) :
    pushLoop body (vs.length - 1) = none ↔ PositionLengthMismatch vs := by
  constructor
  · intro hn
    by_contra hm
    obtain ⟨l, hl⟩ := hsome _ (uniform_of_no_mismatch vs hm)
    rw [hl] at hn
    exact absurd hn (by simp)
  · rintro ⟨i, hi, hne⟩
    exact (pushLoop_eq_none_iff body _).mpr ⟨i, by omega, hnone i hi hne⟩

theorem euclidean_none_iff (sqrt : K → K) (vs : List (Vertex K)) (v_max : K)
    (h2 : 2 ≤ vs.length) :
    estimateSegmentTimesEuclidean sqrt vs v_max = none ↔ PositionLengthMismatch vs := by
  unfold estimateSegmentTimesEuclidean
  rw [if_pos h2]
  refine loop_none_iff_mismatch vs _ h2
    (fun i hi h => euclideanSegmentTime_eq_none sqrt vs v_max i hi h) (fun d hu => ?_)
  obtain ⟨l, hl, -⟩ := euclidean_some sqrt h2 hu v_max
  exact ⟨l, by simpa [estimateSegmentTimesEuclidean, h2] using hl⟩

theorem velocityRamp_none_iff (sqrt : K → K) (vs : List (Vertex K))
    (v_max a_max time_factor : K) (h2 : 2 ≤ vs.length) :
    estimateSegmentTimesVelocityRamp sqrt vs v_max a_max time_factor = none ↔
      PositionLengthMismatch vs := by
  unfold estimateSegmentTimesVelocityRamp
  rw [if_pos h2]
  refine loop_none_iff_mismatch vs _ h2
    (fun i hi h => velocityRampSegmentTime_eq_none sqrt vs v_max a_max i hi h)
    (fun d hu => ?_)
  obtain ⟨l, hl, -⟩ := velocityRamp_some sqrt h2 hu v_max a_max time_factor
  exact ⟨l, by simpa [estimateSegmentTimesVelocityRamp, h2] using hl⟩

theorem baca_none_iff (sqrt : K → K) (vs : List (Vertex K))
    (v_max a_max j_max : K) (h2 : 2 ≤ vs.length) :
    estimateSegmentTimesBaca sqrt vs v_max a_max j_max = none ↔
      PositionLengthMismatch vs := by
  unfold estimateSegmentTimesBaca
  rw [if_pos h2]
  refine loop_none_iff_mismatch vs _ h2
    (fun i hi h => bacaSegmentTime_eq_none sqrt vs v_max a_max j_max i hi h)
    (fun d hu => ?_)
  obtain ⟨l, hl, -⟩ := baca_some sqrt h2 hu v_max a_max j_max
  exact ⟨l, by simpa [estimateSegmentTimesBaca, h2] using hl⟩

theorem uniform_of_all_missing (vs : List (Vertex K))
    (h : ∀ v ∈ vs, v.getConstraint POSITION = none) : UniformPositions 0 vs := by
  intro i hi
  have hmem : vs[i] ∈ vs := List.getElem_mem hi
  rw [positionAt_of_getElem? vs i vs[i] (List.getElem?_eq_getElem hi)]
  simp [Vertex.positionOrEmpty, h _ hmem]

/-- C10 as the code has it: a missing position constraint is not checked for.  The
estimators read an empty position from such a vertex and, on at least 2 vertices, fail
exactly when two consecutive positions so read differ in length (the size assertion of
the vector difference); in particular a sequence none of whose vertices has a position
constraint is accepted by all four, which return one duration per segment. -/
theorem estimators_fail_iff_length_mismatch (vs : List (Vertex ℝ))
    (vMax aMax jMax timeFactor : ℝ) (h2 : 2 ≤ vs.length) :
    ((estimateSegmentTimes Real.sqrt vs vMax aMax jMax = none ↔
        PositionLengthMismatch vs) ∧
      (estimateSegmentTimesEuclidean Real.sqrt vs vMax = none ↔
        PositionLengthMismatch vs) ∧
      (estimateSegmentTimesVelocityRamp Real.sqrt vs vMax aMax timeFactor = none ↔
        PositionLengthMismatch vs) ∧
      (estimateSegmentTimesBaca Real.sqrt vs vMax aMax jMax = none ↔
        PositionLengthMismatch vs)) ∧
    ((∀ v ∈ vs, v.getConstraint POSITION = none) →
      (∃ l, estimateSegmentTimes Real.sqrt vs vMax aMax jMax = some l ∧
        l.length = vs.length - 1) ∧
      (∃ l, estimateSegmentTimesEuclidean Real.sqrt vs vMax = some l ∧
        l.length = vs.length - 1) ∧
      (∃ l, estimateSegmentTimesVelocityRamp Real.sqrt vs vMax aMax timeFactor = some l ∧
        l.length = vs.length - 1) ∧
      (∃ l, estimateSegmentTimesBaca Real.sqrt vs vMax aMax jMax = some l ∧
        l.length = vs.length - 1)) := by
  refine ⟨⟨euclidean_none_iff Real.sqrt vs vMax h2, euclidean_none_iff Real.sqrt vs vMax h2,
    velocityRamp_none_iff Real.sqrt vs vMax aMax timeFactor h2,
    baca_none_iff Real.sqrt vs vMax aMax jMax h2⟩, fun hall => ?_⟩
  have hu := uniform_of_all_missing vs hall
  obtain ⟨l1, hl1, hlen1, -⟩ := euclidean_some Real.sqrt h2 hu vMax
  obtain ⟨l2, hl2, hlen2, -⟩ := velocityRamp_some Real.sqrt h2 hu vMax aMax timeFactor
  obtain ⟨l3, hl3, hlen3, -⟩ := baca_some Real.sqrt h2 hu vMax aMax jMax
  exact ⟨⟨l1, hl1, hlen1⟩, ⟨l1, hl1, hlen1⟩, ⟨l2, hl2, hlen2⟩, ⟨l3, hl3, hlen3⟩⟩

/-- Witness for C10 as the code has it: a vertex without position constraint followed
by one at the origin of 3-space makes all four estimators fail. -/
theorem estimators_fail_iff_length_mismatch_witness :
    estimateSegmentTimes Real.sqrt (halfConstrainedPair : List (Vertex ℝ)) 1 1 1 = none ∧
    estimateSegmentTimesEuclidean Real.sqrt (halfConstrainedPair : List (Vertex ℝ)) 1
      = none ∧
    estimateSegmentTimesVelocityRamp Real.sqrt (halfConstrainedPair : List (Vertex ℝ)) 1 1 1
      = none ∧
    estimateSegmentTimesBaca Real.sqrt (halfConstrainedPair : List (Vertex ℝ)) 1 1 1
      = none := by
  have hm : PositionLengthMismatch (halfConstrainedPair : List (Vertex ℝ)) :=
    ⟨0, by simp [halfConstrainedPair], by
      simp [halfConstrainedPair, positionAt, Vertex.positionOrEmpty, Vertex.getConstraint,
        Vertex.new, List.lookup]⟩
  have h := (estimators_fail_iff_length_mismatch halfConstrainedPair 1 1 1 1
    (by simp [halfConstrainedPair])).1
  exact ⟨h.1.mpr hm, h.2.1.mpr hm, h.2.2.1.mpr hm, h.2.2.2.mpr hm⟩

/-- C10 refuted as stated: two vertices without any position constraint are accepted by
all four estimators, which return the floor duration of the single segment. -/
theorem missing_position_not_rejected :
    2 ≤ (unconstrainedPair : List (Vertex ℝ)).length ∧
    (∃ v ∈ (unconstrainedPair : List (Vertex ℝ)), v.getConstraint POSITION = none) ∧
    estimateSegmentTimes Real.sqrt (unconstrainedPair : List (Vertex ℝ)) 1 1 1
      = some [0.01] ∧
    estimateSegmentTimesEuclidean Real.sqrt (unconstrainedPair : List (Vertex ℝ)) 1
      = some [0.01] ∧
    estimateSegmentTimesVelocityRamp Real.sqrt (unconstrainedPair : List (Vertex ℝ)) 1 1 1
      = some [0.1] ∧
    estimateSegmentTimesBaca Real.sqrt (unconstrainedPair : List (Vertex ℝ)) 1 1 1
      = some [0.01] := by
  have hE : estimateSegmentTimesEuclidean Real.sqrt (unconstrainedPair : List (Vertex ℝ)) 1
      = some [0.01] := by
    simp [estimateSegmentTimesEuclidean, pushLoop, euclideanSegmentTime, unconstrainedPair,
      Vertex.new, Vertex.positionOrEmpty, Vertex.getConstraint, List.lookup, vsub, norm,
      squaredNorm]
    norm_num
  refine ⟨by simp [unconstrainedPair], ⟨Vertex.new 3, by simp [unconstrainedPair], rfl⟩,
    hE, hE, ?_, ?_⟩
  · simp [estimateSegmentTimesVelocityRamp, pushLoop, velocityRampSegmentTime,
      computeTimeVelocityRamp, kMinSegmentTime, unconstrainedPair,
      Vertex.new, Vertex.positionOrEmpty, Vertex.getConstraint, List.lookup, vsub, norm,
      squaredNorm]
    norm_num
  · simp [estimateSegmentTimesBaca, pushLoop, bacaSegmentTime, bacaPhases, bacaCaps,
      unconstrainedPair,
      Vertex.new, Vertex.positionOrEmpty, Vertex.getConstraint, List.lookup, vsub, norm,
      squaredNorm]
    norm_num

/-! ## Too few vertices -/

/-- C11: on a vertex sequence with fewer than 2 vertices (empty or a single vertex) each
of the four estimators fails and returns no durations, whatever the limits are. -/
theorem estimators_fail_below_two_vertices (sqrt : K → K) (vertices : List (Vertex K))
    (vMax aMax jMax timeFactor : K) (h : vertices.length < 2) :
    estimateSegmentTimes sqrt vertices vMax aMax jMax = none ∧
    estimateSegmentTimesEuclidean sqrt vertices vMax = none ∧
    estimateSegmentTimesVelocityRamp sqrt vertices vMax aMax timeFactor = none ∧
    estimateSegmentTimesBaca sqrt vertices vMax aMax jMax = none := by
  have h2 : ¬ (2 ≤ vertices.length) := by omega
  simp [estimateSegmentTimes, estimateSegmentTimesEuclidean,
    estimateSegmentTimesVelocityRamp, estimateSegmentTimesBaca, h2]

/-- Witness for C11: a single unconstrained 3-dimensional vertex with all limits `1`. -/
theorem estimators_fail_below_two_vertices_witness :
    estimateSegmentTimes Real.sqrt [(Vertex.new 3 : Vertex ℝ)] 1 1 1 = none ∧
    estimateSegmentTimesEuclidean Real.sqrt [(Vertex.new 3 : Vertex ℝ)] 1 = none ∧
    estimateSegmentTimesVelocityRamp Real.sqrt [(Vertex.new 3 : Vertex ℝ)] 1 1 1 = none ∧
    estimateSegmentTimesBaca Real.sqrt [(Vertex.new 3 : Vertex ℝ)] 1 1 1 = none :=
  estimators_fail_below_two_vertices Real.sqrt [Vertex.new 3] 1 1 1 1 (by decide)

/-! ## The constraint map -/

theorem lookup_cons_eq (k2 k : Int) (c : List K) (l : List (Int × List K)) :
    List.lookup k2 ((k, c) :: l) = if k2 = k then some c else List.lookup k2 l := by
  by_cases h : k2 = k
  · subst h
    simp [List.lookup]
  · have hb : (k2 == k) = false := by simpa using h
    simp [List.lookup, hb, h]

theorem lookup_mapAssign (k k2 : Int) (c : List K) (l : List (Int × List K)) :
    (mapAssign k c l).lookup k2 = if k2 = k then some c else l.lookup k2 := by
  induction l with
  | nil => simp [mapAssign, lookup_cons_eq]
  | cons e rest ih =>
    obtain ⟨k0, c0⟩ := e
    unfold mapAssign
    by_cases h1 : k < k0
    · rw [if_pos h1, lookup_cons_eq]
    · rw [if_neg h1]
      by_cases h2 : k = k0
      · rw [if_pos h2]
        subst h2
        simp only [lookup_cons_eq]
        split_ifs <;> rfl
      · rw [if_neg h2]
        simp only [lookup_cons_eq, ih]
        by_cases h : k2 = k
        · subst h
          simp [h2]
        · simp [h]

theorem mem_mapAssign (k : Int) (c : List K) (l : List (Int × List K)) (e : Int × List K)
    (h : e ∈ mapAssign k c l) : e = (k, c) ∨ e ∈ l := by
  induction l with
  | nil => simpa [mapAssign] using h
  | cons e0 rest ih =>
    obtain ⟨k0, c0⟩ := e0
    unfold mapAssign at h
    split_ifs at h with h1 h2
    · simpa using h
    · simp only [List.mem_cons] at h ⊢
      rcases h with h | h
      · exact Or.inl h
      · exact Or.inr (Or.inr h)
    · simp only [List.mem_cons] at h ⊢
      rcases h with h | h
      · exact Or.inr (Or.inl h)
      · rcases ih h with h | h
        · exact Or.inl h
        · exact Or.inr (Or.inr h)

theorem mem_mapErase (t : Int) (l : List (Int × List K)) (e : Int × List K)
    (h : e ∈ mapErase t l) : e ∈ l := by
  induction l with
  | nil => simp [mapErase] at h
  | cons e0 rest ih =>
    obtain ⟨k0, c0⟩ := e0
    unfold mapErase at h
    split_ifs at h with h1
    · exact List.mem_cons_of_mem _ h
    · simp only [List.mem_cons] at h ⊢
      rcases h with h | h
      · exact Or.inl h
      · exact Or.inr (ih h)

theorem lookup_zeroLoop (D : Nat) (cs : List (Int × List K)) (n : Nat) (k : Int) :
    (zeroLoop D cs n).lookup k =
      if 1 ≤ k ∧ k ≤ (n : Int) then some (List.replicate D 0) else cs.lookup k := by
  induction n with
  | zero =>
    have h0 : ¬ (1 ≤ k ∧ k ≤ ((0 : Nat) : Int)) := by omega
    rw [if_neg h0]
    rfl
  | succ n ih =>
    simp only [zeroLoop, lookup_mapAssign, ih]
    by_cases h : k = ((n + 1 : Nat) : Int)
    · have h2 : 1 ≤ k ∧ k ≤ ((n + 1 : Nat) : Int) := by omega
      simp [h, h2]
    · by_cases h3 : 1 ≤ k ∧ k ≤ (n : Int)
      · have h4 : 1 ≤ k ∧ k ≤ ((n + 1 : Nat) : Int) := by omega
        rw [if_neg h, if_pos h3, if_pos h4]
      · have h4 : ¬ (1 ≤ k ∧ k ≤ ((n + 1 : Nat) : Int)) := by omega
        rw [if_neg h, if_neg h3, if_neg h4]

theorem mem_zeroLoop (D : Nat) (cs : List (Int × List K)) (n : Nat) (e : Int × List K)
    (h : e ∈ zeroLoop D cs n) : e.2 = List.replicate D 0 ∨ e ∈ cs := by
  induction n with
  | zero => exact Or.inr h
  | succ n ih =>
    rcases mem_mapAssign _ _ _ _ h with h | h
    · exact Or.inl (by rw [h])
    · exact ih h

theorem addConstraint_invariant (v w : Vertex K) (k : Int) (c : List K)
    (hv : v.Invariant) (h : v.addConstraint k c = some w) : w.Invariant ∧ w.D = v.D := by
  unfold Vertex.addConstraint at h
  split_ifs at h with hlen
  simp only [Option.some.injEq] at h
  subst h
  refine ⟨fun e he => ?_, rfl⟩
  rcases mem_mapAssign _ _ _ _ he with h | h
  · rw [h]
    exact hlen
  · exact hv e h

theorem makeStartOrEnd_invariant (v w : Vertex K) (p : List K) (m : Int)
    (hv : v.Invariant) (h : v.makeStartOrEnd p m = some w) : w.Invariant ∧ w.D = v.D := by
  unfold Vertex.makeStartOrEnd at h
  cases ha : v.addConstraint POSITION p with
  | none => simp [ha] at h
  | some u =>
    obtain ⟨hu, hD⟩ := addConstraint_invariant v u POSITION p hv ha
    simp only [ha, Option.bind_eq_bind, Option.some_bind, Option.pure_def,
      Option.some.injEq] at h
    subst h
    refine ⟨fun e he => ?_, hD⟩
    rcases mem_zeroLoop _ _ _ _ he with h | h
    · rw [h]
      simp
    · exact hu e h

theorem copyLoop_invariant (subdimensions : List Nat) (m : Int)
    (cs : List (Int × List K)) (sub r : Vertex K) (hs : sub.Invariant)
    (h : copyLoop subdimensions m cs sub = some r) : r.Invariant ∧ r.D = sub.D := by
  induction cs generalizing sub with
  | nil =>
    simp only [copyLoop, Option.some.injEq] at h
    subst h
    exact ⟨hs, rfl⟩
  | cons e rest ih =>
    obtain ⟨k, c⟩ := e
    unfold copyLoop at h
    split_ifs at h with hk
    · exact ih sub hs h
    · cases hg : gather c subdimensions with
      | none => simp [hg] at h
      | some g =>
        cases ha : sub.addConstraint k g with
        | none => simp [hg, ha] at h
        | some u =>
          simp only [hg, ha, Option.bind_eq_bind, Option.some_bind] at h
          obtain ⟨hu, hD⟩ := addConstraint_invariant sub u k g hs ha
          obtain ⟨hr, hrD⟩ := ih u hu h
          exact ⟨hr, hrD.trans hD⟩

/-! ## Start and end vertices -/

/-- C19: for a vertex of dimension `D`, a position of length `D` and any
`maxDerivativeOrder = m`, `makeStartOrEnd(position, m)` succeeds and afterwards the
constraint of order 0 is `position`, the constraint of every order `k` with `1 <= k <= m`
is the zero vector of length `D`, and every other order (in particular every order above
`m`) has exactly the constraint it had before; for `m <= 0` only the position constraint
is set. -/
theorem makeStartOrEnd_constraints (v : Vertex K) (position : List K) (m : Int)
    (hlen : position.length = v.D) :
    ∃ w, v.makeStartOrEnd position m = some w ∧ w.D = v.D ∧
      w.getConstraint POSITION = some position ∧
      (∀ k : Int, 1 ≤ k → k ≤ m → w.getConstraint k = some (List.replicate v.D 0)) ∧
      (∀ k : Int, m < k → k ≠ POSITION → w.getConstraint k = v.getConstraint k) ∧
      (∀ k : Int, k ≠ POSITION → ¬ (1 ≤ k ∧ k ≤ m) →
        w.getConstraint k = v.getConstraint k) ∧
      (m ≤ 0 → w.constraints = mapAssign POSITION position v.constraints) := by
  have hother : ∀ k : Int, k ≠ POSITION → ¬ (1 ≤ k ∧ k ≤ m) →
      (zeroLoop v.D (mapAssign POSITION position v.constraints) m.toNat).lookup k
        = v.constraints.lookup k := by
    intro k hk hr
    have hr2 : ¬ (1 ≤ k ∧ k ≤ (m.toNat : Int)) := by omega
    rw [lookup_zeroLoop, if_neg hr2, lookup_mapAssign, if_neg hk]
  refine ⟨⟨v.D, zeroLoop v.D (mapAssign POSITION position v.constraints) m.toNat⟩,
    by simp [Vertex.makeStartOrEnd, Vertex.addConstraint, hlen], rfl, ?_, ?_, ?_, ?_, ?_⟩
  · have h0 : ¬ (1 ≤ POSITION ∧ POSITION ≤ (m.toNat : Int)) := by
      simp [POSITION]
    simp only [Vertex.getConstraint]
    rw [lookup_zeroLoop, if_neg h0, lookup_mapAssign, if_pos rfl]
  · intro k h1 hm
    have hr : 1 ≤ k ∧ k ≤ (m.toNat : Int) := by omega
    simp only [Vertex.getConstraint]
    rw [lookup_zeroLoop, if_pos hr]
  · intro k hk h0
    exact hother k h0 (by omega)
  · intro k h0 hr
    exact hother k h0 hr
  · intro hm
    have : m.toNat = 0 := by omega
    simp [this, zeroLoop]

/-- Witness for C19: a fresh 2-dimensional vertex pinned at `(1, 2)` up to order 2. -/
theorem makeStartOrEnd_constraints_witness :
    ∃ w, (Vertex.new 2 : Vertex ℚ).makeStartOrEnd [1, 2] 2 = some w ∧
      w.D = (Vertex.new 2 : Vertex ℚ).D ∧
      w.getConstraint POSITION = some [1, 2] ∧
      (∀ k : Int, 1 ≤ k → k ≤ 2 →
        w.getConstraint k = some (List.replicate (Vertex.new 2 : Vertex ℚ).D 0)) ∧
      (∀ k : Int, 2 < k → k ≠ POSITION →
        w.getConstraint k = (Vertex.new 2 : Vertex ℚ).getConstraint k) ∧
      (∀ k : Int, k ≠ POSITION → ¬ (1 ≤ k ∧ k ≤ 2) →
        w.getConstraint k = (Vertex.new 2 : Vertex ℚ).getConstraint k) ∧
      ((2 : Int) ≤ 0 →
        w.constraints = mapAssign POSITION [1, 2] (Vertex.new 2 : Vertex ℚ).constraints) :=
  makeStartOrEnd_constraints (Vertex.new 2) [1, 2] 2 rfl

/-! ## The length invariant -/

/-- C20: the invariant "every stored constraint vector has exactly length `D`" holds for
a freshly constructed vertex; `addConstraint` stores the value and keeps the invariant
when the length is `D` and fails, storing nothing, otherwise; `removeConstraint` and
`makeStartOrEnd` keep it; the vertex produced by a successful `getSubdimension` satisfies
it with `D` the number of requested indices. -/
theorem vertex_invariant_preserved :
    (∀ D : Nat, (Vertex.new D : Vertex K).Invariant) ∧
    (∀ (v : Vertex K) (k : Int) (c : List K), v.Invariant → c.length = v.D →
      ∃ w, v.addConstraint k c = some w ∧ w.D = v.D ∧ w.getConstraint k = some c ∧
        w.Invariant) ∧
    (∀ (v : Vertex K) (k : Int) (c : List K), c.length ≠ v.D →
      v.addConstraint k c = none) ∧
    (∀ (v : Vertex K) (t : Int), v.Invariant →
      (v.removeConstraint t).2.Invariant ∧ (v.removeConstraint t).2.D = v.D) ∧
    (∀ (v w : Vertex K) (p : List K) (m : Int), v.Invariant →
      v.makeStartOrEnd p m = some w → w.Invariant ∧ w.D = v.D) ∧
    (∀ (v sub : Vertex K) (subdimensions : List Nat) (m : Int),
      v.getSubdimension subdimensions m = some (true, sub) →
      sub.Invariant ∧ sub.D = subdimensions.length) := by
  refine ⟨?_, ?_, ?_, ?_, ?_, ?_⟩
  · intro D e he
    simp [Vertex.new] at he
  · intro v k c hv hlen
    have ha : v.addConstraint k c = some ⟨v.D, mapAssign k c v.constraints⟩ := by
      simp [Vertex.addConstraint, hlen]
    refine ⟨_, ha, rfl, ?_, (addConstraint_invariant v _ k c hv ha).1⟩
    simp [Vertex.getConstraint, lookup_mapAssign]
  · intro v k c hlen
    simp [Vertex.addConstraint, hlen]
  · intro v t hv
    unfold Vertex.removeConstraint
    split_ifs
    · exact ⟨fun e he => hv e (mem_mapErase t _ e he), rfl⟩
    · exact ⟨hv, rfl⟩
  · intro v w p m hv h
    exact makeStartOrEnd_invariant v w p m hv h
  · intro v sub subdimensions m h
    unfold Vertex.getSubdimension at h
    simp only at h
    split_ifs at h with hany
    · simp at h
    · cases hc : copyLoop subdimensions m v.constraints (Vertex.new subdimensions.length) with
      | none => simp [hc] at h
      | some r =>
        simp only [hc, Option.map_some', Option.some.injEq, Prod.mk.injEq, true_and] at h
        subst h
        have hnew : (Vertex.new subdimensions.length : Vertex K).Invariant := by
          intro e he
          simp [Vertex.new] at he
        exact copyLoop_invariant subdimensions m v.constraints _ r hnew hc

/-- Witness for C20: on a fresh 2-dimensional vertex, adding `(1, 2)` as position keeps
the invariant and adding the 1-dimensional `(1)` fails. -/
theorem vertex_invariant_preserved_witness :
    (Vertex.new 2 : Vertex ℚ).Invariant ∧
    (∃ w, (Vertex.new 2 : Vertex ℚ).addConstraint POSITION [1, 2] = some w ∧
      w.D = (Vertex.new 2 : Vertex ℚ).D ∧ w.getConstraint POSITION = some [1, 2] ∧
      w.Invariant) ∧
    (Vertex.new 2 : Vertex ℚ).addConstraint POSITION [1] = none :=
  ⟨vertex_invariant_preserved.1 2,
    vertex_invariant_preserved.2.1 (Vertex.new 2) POSITION [1, 2]
      (vertex_invariant_preserved.1 2) rfl,
    vertex_invariant_preserved.2.2.1 (Vertex.new 2) POSITION [1] (by decide)⟩

/-! ## Equality up to a tolerance -/

theorem mem_of_lookup (l : List (Int × List K)) (k : Int) (c : List K)
    (h : l.lookup k = some c) : (k, c) ∈ l := by
  induction l with
  | nil => simp [List.lookup] at h
  | cons e rest ih =>
    obtain ⟨k0, c0⟩ := e
    rw [lookup_cons_eq] at h
    split_ifs at h with hk
    · simp only [Option.some.injEq] at h
      subst hk
      subst h
      exact List.mem_cons_self _ _
    · exact List.mem_cons_of_mem _ (ih h)

theorem lookup_of_mem (l : List (Int × List K)) (k : Int) (c : List K)
    (hnd : (l.map Prod.fst).Nodup) (h : (k, c) ∈ l) : l.lookup k = some c := by
  induction l with
  | nil => simp at h
  | cons e rest ih =>
    obtain ⟨k0, c0⟩ := e
    simp only [List.map_cons, List.nodup_cons] at hnd
    rw [lookup_cons_eq]
    simp only [List.mem_cons, Prod.mk.injEq] at h
    rcases h with ⟨hk, hc⟩ | h
    · rw [if_pos hk, hc]
    · have hne : ¬ (k = k0) := by
        intro hk
        apply hnd.1
        rw [← hk]
        exact List.mem_map_of_mem Prod.fst h
      rw [if_neg hne]
      exact ih hnd.2 h

theorem lookup_isSome_iff_mem_keys (l : List (Int × List K)) (k : Int) :
    (l.lookup k).isSome = true ↔ k ∈ l.map Prod.fst := by
  induction l with
  | nil => simp [List.lookup]
  | cons e rest ih =>
    obtain ⟨k0, c0⟩ := e
    rw [lookup_cons_eq]
    by_cases hk : k = k0
    · simp [hk]
    · rw [if_neg hk, ih]
      simp [hk]

theorem isZero_mono (v : List K) (tol1 tol2 : K) (h : tol1 ≤ tol2)
    (hz : isZero v tol1 = true) : isZero v tol2 = true := by
  unfold isZero at hz ⊢
  rw [List.all_eq_true] at hz ⊢
  intro x hx
  have h1 := hz x hx
  simp only [abs_one, one_mul, decide_eq_true_eq] at h1 ⊢
  exact le_trans h1 h

theorem isEqualTolLoop_mono (rhs : List (Int × List K)) (tol1 tol2 : K) (h : tol1 ≤ tol2)
    (l : List (Int × List K)) (ht : isEqualTolLoop rhs tol1 l = some true) :
    isEqualTolLoop rhs tol2 l = some true := by
  induction l with
  | nil => rfl
  | cons e rest ih =>
    obtain ⟨k, c⟩ := e
    unfold isEqualTolLoop at ht ⊢
    cases hl : rhs.lookup k with
    | none => simp [hl] at ht
    | some c2 =>
      simp only [hl] at ht ⊢
      cases hd : vsub c c2 with
      | none => simp [hd] at ht
      | some diff =>
        simp only [hd, Option.bind_eq_bind, Option.some_bind, Option.pure_def] at ht ⊢
        by_cases hz : isZero diff tol1 = true
        · have hz2 := isZero_mono diff tol1 tol2 h hz
          simp only [hz, hz2, Bool.not_true, Bool.false_eq_true, if_false] at ht ⊢
          exact ih ht
        · simp [hz] at ht

/-- C13: `isEqualTol` is monotone in the tolerance: for all vertices `a`, `b` and all
`tol1 < tol2`, `a.isEqualTol(b, tol1) = true` implies `a.isEqualTol(b, tol2) = true`. -/
theorem isEqualTol_mono (a b : Vertex K) (tol1 tol2 : K) (hD : a.D = b.D)
    (h : tol1 < tol2) (ht : a.isEqualTol b tol1 = some true) :
    a.isEqualTol b tol2 = some true := by
  unfold Vertex.isEqualTol at ht ⊢
  split_ifs at ht ⊢ with hlen
  · simp at ht
  · exact isEqualTolLoop_mono b.constraints tol1 tol2 h.le a.constraints ht

/-- Witness for C13: the 1-dimensional positions `0` and `1/2` are equal within `1/2`,
hence within `1`. -/
theorem isEqualTol_mono_witness :
    (⟨1, [(POSITION, [0])]⟩ : Vertex ℚ).isEqualTol ⟨1, [(POSITION, [1 / 2])]⟩ 1 =
      some true :=
  isEqualTol_mono ⟨1, [(POSITION, [0])]⟩ ⟨1, [(POSITION, [1 / 2])]⟩ (1 / 2) 1 rfl
    (by norm_num) (by
      simp [Vertex.isEqualTol, isEqualTolLoop, lookup_cons_eq, vsub, isZero]
      norm_num [abs_le])

theorem isZero_sub_iff (ca cb : List K) (tol : K) (hlen : ca.length = cb.length) :
    isZero (List.zipWith (fun x y => x - y) ca cb) tol = true ↔
      ∀ i, i < ca.length → |ca.getD i 0 - cb.getD i 0| ≤ tol := by
  induction ca generalizing cb with
  | nil => simp [isZero]
  | cons x xs ih =>
    cases cb with
    | nil => simp at hlen
    | cons y ys =>
      simp only [List.length_cons, add_left_inj] at hlen
      have hrec := ih ys hlen
      simp only [isZero, List.zipWith_cons_cons, List.all_cons, Bool.and_eq_true,
        decide_eq_true_eq, abs_one, one_mul] at hrec ⊢
      rw [hrec]
      constructor
      · rintro ⟨h0, hs⟩ i hi
        cases i with
        | zero => simpa using h0
        | succ j =>
          have := hs j (by simpa using hi)
          simpa using this
      · intro h
        refine ⟨by simpa using h 0 (by simp), fun j hj => ?_⟩
        have := h (j + 1) (by simpa using hj)
        simpa using this

theorem isEqualTolLoop_spec (D : Nat) (rhs : List (Int × List K)) (tol : K)
    (l : List (Int × List K)) (hl : ∀ e ∈ l, e.2.length = D)
    (hr : ∀ e ∈ rhs, e.2.length = D) :
    ∃ r, isEqualTolLoop rhs tol l = some r ∧
      (r = true ↔ ∀ e ∈ l, ∃ cb, rhs.lookup e.1 = some cb ∧
        ∀ i, i < D → |e.2.getD i 0 - cb.getD i 0| ≤ tol) := by
  induction l with
  | nil => exact ⟨true, rfl, by simp⟩
  | cons e rest ih =>
    obtain ⟨k, c⟩ := e
    have hc : c.length = D := hl (k, c) (List.mem_cons_self _ _)
    obtain ⟨r, hr1, hr2⟩ := ih (fun e he => hl e (List.mem_cons_of_mem _ he))
    unfold isEqualTolLoop
    cases hlook : rhs.lookup k with
    | none =>
      refine ⟨false, rfl, ?_⟩
      simp only [Bool.false_eq_true, false_iff]
      intro hall
      obtain ⟨cb, hcb, -⟩ := hall (k, c) (List.mem_cons_self _ _)
      simp [hlook] at hcb
    | some c2 =>
      have hc2 : c2.length = D := hr (k, c2) (mem_of_lookup rhs k c2 hlook)
      have hz := isZero_sub_iff c c2 tol (hc.trans hc2.symm)
      rw [hc] at hz
      simp only [vsub_of_length_eq c c2 (hc.trans hc2.symm), Option.bind_eq_bind,
        Option.some_bind, Option.pure_def]
      by_cases hzero : isZero (List.zipWith (fun x y => x - y) c c2) tol = true
      · refine ⟨r, by simp [hzero, hr1], ?_⟩
        rw [hr2]
        constructor
        · intro hall e he
          rcases List.mem_cons.mp he with rfl | he
          · exact ⟨c2, hlook, hz.mp hzero⟩
          · exact hall e he
        · intro hall e he
          exact hall e (List.mem_cons_of_mem _ he)
      · refine ⟨false, by simp [hzero], ?_⟩
        simp only [Bool.false_eq_true, false_iff]
        intro hall
        obtain ⟨cb, hcb, hclose⟩ := hall (k, c) (List.mem_cons_self _ _)
        rw [hlook] at hcb
        simp only [Option.some.injEq] at hcb
        subst hcb
        exact hzero (hz.mpr hclose)

theorem keys_nodup (v : Vertex K) (h : v.KeysAscending) :
    (v.constraints.map Prod.fst).Nodup :=
  List.Pairwise.imp (fun hlt => ne_of_lt hlt) h

theorem hasConstraint_iff_mem_keys (v : Vertex K) (k : Int) :
    v.hasConstraint k = true ↔ k ∈ v.constraints.map Prod.fst :=
  lookup_isSome_iff_mem_keys v.constraints k

/-- C12: for vertices `a` and `b` of the same dimension (each an ordered map whose
vectors have length `D`) and every `tol`, `a.isEqualTol(b, tol)` returns, and it is true
if and only if `a` and `b` have the same set of constrained derivative orders and, for
every such order and every component `i`, `|a_value[i] - b_value[i]| <= tol`. -/
theorem isEqualTol_iff (a b : Vertex K) (tol : K) (hD : a.D = b.D)
    (ha : a.Invariant) (hb : b.Invariant) (hka : a.KeysAscending) (hkb : b.KeysAscending) :
    ∃ r, a.isEqualTol b tol = some r ∧
      (r = true ↔
        (∀ k, a.hasConstraint k = b.hasConstraint k) ∧
        ∀ k ca cb, a.getConstraint k = some ca → b.getConstraint k = some cb →
          ∀ i, i < a.D → |ca.getD i 0 - cb.getD i 0| ≤ tol) := by
  have nda := keys_nodup a hka
  have ndb := keys_nodup b hkb
  by_cases hlen : a.constraints.length = b.constraints.length
  · obtain ⟨r, hr1, hr2⟩ := isEqualTolLoop_spec a.D b.constraints tol a.constraints ha
      (fun e he => (hb e he).trans hD.symm)
    refine ⟨r, by simp [Vertex.isEqualTol, hlen, hr1], ?_⟩
    rw [hr2]
    constructor
    · intro hQ
      have hsub : a.constraints.map Prod.fst ⊆ b.constraints.map Prod.fst := by
        intro k hk
        obtain ⟨e, he, rfl⟩ := List.mem_map.mp hk
        obtain ⟨cb, hcb, -⟩ := hQ e he
        exact (lookup_isSome_iff_mem_keys b.constraints e.1).mp (by simp [hcb])
      have hperm := (List.subperm_of_subset nda hsub).perm_of_length_le
        (by simp [hlen])
      refine ⟨fun k => ?_, fun k ca cb hca hcb => ?_⟩
      · rw [Bool.eq_iff_iff, hasConstraint_iff_mem_keys, hasConstraint_iff_mem_keys]
        exact hperm.mem_iff
      · obtain ⟨cb2, hcb2, hclose⟩ := hQ (k, ca) (mem_of_lookup a.constraints k ca hca)
        have heq : b.constraints.lookup k = some cb := hcb
        rw [hcb2] at heq
        simp only [Option.some.injEq] at heq
        subst heq
        exact hclose
    · rintro ⟨hhas, hclose⟩ e he
      have hla : a.getConstraint e.1 = some e.2 :=
        lookup_of_mem a.constraints e.1 e.2 nda he
      have hat : a.hasConstraint e.1 = true := by
        simp [Vertex.hasConstraint, show a.constraints.lookup e.1 = some e.2 from hla]
      have hbt : b.hasConstraint e.1 = true := by rw [← hhas]; exact hat
      obtain ⟨cb, hcb⟩ := Option.isSome_iff_exists.mp hbt
      exact ⟨cb, hcb, hclose e.1 e.2 cb hla hcb⟩
  · refine ⟨false, by simp [Vertex.isEqualTol, hlen], ?_⟩
    simp only [Bool.false_eq_true, false_iff]
    rintro ⟨hhas, -⟩
    apply hlen
    have hperm : (a.constraints.map Prod.fst).Perm (b.constraints.map Prod.fst) := by
      rw [List.perm_ext_iff_of_nodup nda ndb]
      intro k
      rw [← hasConstraint_iff_mem_keys, ← hasConstraint_iff_mem_keys, hhas k]
    simpa using hperm.length_eq

/-- Witness for C12: the 1-dimensional positions `0` and `1/2` with tolerance `1`. -/
theorem isEqualTol_iff_witness :
    ∃ r, (⟨1, [(POSITION, [0])]⟩ : Vertex ℚ).isEqualTol ⟨1, [(POSITION, [1 / 2])]⟩ 1
        = some r ∧
      (r = true ↔
        (∀ k, (⟨1, [(POSITION, [0])]⟩ : Vertex ℚ).hasConstraint k =
          (⟨1, [(POSITION, [1 / 2])]⟩ : Vertex ℚ).hasConstraint k) ∧
        ∀ k ca cb, (⟨1, [(POSITION, [0])]⟩ : Vertex ℚ).getConstraint k = some ca →
          (⟨1, [(POSITION, [1 / 2])]⟩ : Vertex ℚ).getConstraint k = some cb →
          ∀ i, i < (⟨1, [(POSITION, [0])]⟩ : Vertex ℚ).D →
            |ca.getD i 0 - cb.getD i 0| ≤ 1) :=
  isEqualTol_iff ⟨1, [(POSITION, [0])]⟩ ⟨1, [(POSITION, [1 / 2])]⟩ 1 rfl
    (by simp [Vertex.Invariant]) (by simp [Vertex.Invariant])
    (by simp [Vertex.KeysAscending]) (by simp [Vertex.KeysAscending])

/-! ## Projection onto a subset of the axes -/

theorem gather_eq_map (c : List K) (idxs : List Nat) (h : ∀ idx ∈ idxs, idx < c.length) :
    gather c idxs = some (idxs.map (fun i => c.getD i 0)) := by
  induction idxs with
  | nil => rfl
  | cons i rest ih =>
    have hi : i < c.length := h i (List.mem_cons_self _ _)
    have hrest := ih (fun idx hidx => h idx (List.mem_cons_of_mem _ hidx))
    simp [gather, hrest, List.getElem?_eq_getElem hi, List.getD_eq_getElem c 0 hi]

theorem map_getD_range (c : List K) :
    (List.range c.length).map (fun i => c.getD i 0) = c := by
  apply List.ext_getElem
  · simp
  · intro i h1 h2
    simp [List.getElem?_eq_getElem h2]

theorem mapAssign_append (k : Int) (c : List K) (l : List (Int × List K))
    (h : ∀ e ∈ l, e.1 < k) : mapAssign k c l = l ++ [(k, c)] := by
  induction l with
  | nil => rfl
  | cons e rest ih =>
    obtain ⟨k0, c0⟩ := e
    have h0 : k0 < k := h (k0, c0) (List.mem_cons_self _ _)
    have h1 : ¬ (k < k0) := by omega
    have h2 : ¬ (k = k0) := by omega
    unfold mapAssign
    rw [if_neg h1, if_neg h2, ih (fun e he => h e (List.mem_cons_of_mem _ he))]
    rfl

theorem copyLoop_range (D : Nat) (m : Int) (cs acc : List (Int × List K))
    (hlen : ∀ e ∈ cs, e.2.length = D)
    (hasc : (cs.map Prod.fst).Pairwise (fun a b => a < b))
    (hacc : ∀ e ∈ acc, ∀ e2 ∈ cs, e.1 < e2.1) :
    copyLoop (List.range D) m cs ⟨(List.range D).length, acc⟩ =
      some ⟨(List.range D).length, acc ++ cs.filter (fun e => decide (e.1 ≤ m))⟩ := by
  induction cs generalizing acc with
  | nil => simp [copyLoop]
  | cons e rest ih =>
    obtain ⟨k, c⟩ := e
    have hc : c.length = D := hlen (k, c) (List.mem_cons_self _ _)
    simp only [List.map_cons, List.pairwise_cons] at hasc
    have hrestlen : ∀ e ∈ rest, e.2.length = D :=
      fun e he => hlen e (List.mem_cons_of_mem _ he)
    unfold copyLoop
    by_cases hk : k > m
    · have hk2 : ¬ (k ≤ m) := by omega
      rw [if_pos hk, ih acc hrestlen hasc.2
        (fun e he e2 he2 => hacc e he e2 (List.mem_cons_of_mem _ he2))]
      simp [List.filter_cons, hk2]
    · have hk2 : k ≤ m := by omega
      have hg : gather c (List.range D) = some c := by
        rw [gather_eq_map c (List.range D) (by simp [hc]), ← hc, map_getD_range]
      have hlt : ∀ e ∈ acc, e.1 < k := fun e he => hacc e he (k, c) (List.mem_cons_self _ _)
      rw [if_neg hk]
      simp only [hg, Option.bind_eq_bind, Option.some_bind, Vertex.addConstraint,
        List.length_range, hc, if_true, mapAssign_append k c acc hlt]
      have hnext := ih (acc ++ [(k, c)]) hrestlen hasc.2 (by
        intro e he e2 he2
        rcases List.mem_append.mp he with he | he
        · exact hacc e he e2 (List.mem_cons_of_mem _ he2)
        · simp only [List.mem_singleton] at he
          subst he
          exact hasc.1 e2.1 (List.mem_map_of_mem Prod.fst he2))
      simp only [List.length_range] at hnext
      rw [hnext]
      simp [List.filter_cons, hk2]

theorem lookup_filter_le (m k : Int) (l : List (Int × List K)) :
    (l.filter (fun e => decide (e.1 ≤ m))).lookup k =
      if k ≤ m then l.lookup k else none := by
  induction l with
  | nil => simp [List.lookup]
  | cons e rest ih =>
    obtain ⟨k0, c0⟩ := e
    by_cases h0 : k0 ≤ m
    · rw [List.filter_cons_of_pos (by simpa using h0), lookup_cons_eq, lookup_cons_eq, ih]
      by_cases hk : k = k0
      · subst hk
        simp [h0]
      · simp [hk]
    · rw [List.filter_cons_of_neg (by simpa using h0), lookup_cons_eq, ih]
      by_cases hk : k = k0
      · subst hk
        simp [h0]
      · simp [hk]

/-- C14: for a vertex `v` of dimension `D` (an ordered map whose vectors have length `D`)
and every `maxDerivativeOrder = m`, `getSubdimension` with the index list
`[0, 1, ..., D-1]` succeeds and yields a vertex of dimension `D` whose constraint map is
`v`'s constraint map restricted to the orders `<= m`: the same orders with identical
vectors, and no order above `m`. -/
theorem getSubdimension_all_axes (v : Vertex K) (m : Int)
    (hv : v.Invariant) (hk : v.KeysAscending) :
    ∃ sub, v.getSubdimension (List.range v.D) m = some (true, sub) ∧ sub.D = v.D ∧
      sub.constraints = v.constraints.filter (fun e => decide (e.1 ≤ m)) ∧
      ∀ k, sub.getConstraint k = if k ≤ m then v.getConstraint k else none := by
  have hany : (List.range v.D).any (fun subdimension => decide (subdimension ≥ v.D))
      = false := by
    rw [List.any_eq_false]
    intro x hx
    simpa using List.mem_range.mp hx
  have hloop := copyLoop_range v.D m v.constraints [] hv hk (by simp)
  refine ⟨⟨(List.range v.D).length, v.constraints.filter (fun e => decide (e.1 ≤ m))⟩,
    ?_, by simp, rfl, fun k => lookup_filter_le m k v.constraints⟩
  simp only [List.nil_append] at hloop
  simp only [Vertex.getSubdimension, hany, Bool.false_eq_true, if_false, Vertex.new, hloop,
    Option.map_some']

/-- Witness for C14: a 2-dimensional vertex with position `(1, 2)` and velocity `(3, 4)`,
projected onto both axes up to order 0. -/
theorem getSubdimension_all_axes_witness :
    ∃ sub, (⟨2, [(0, [1, 2]), (1, [3, 4])]⟩ : Vertex ℚ).getSubdimension
        (List.range (⟨2, [(0, [1, 2]), (1, [3, 4])]⟩ : Vertex ℚ).D) 0 = some (true, sub) ∧
      sub.D = (⟨2, [(0, [1, 2]), (1, [3, 4])]⟩ : Vertex ℚ).D ∧
      sub.constraints = (⟨2, [(0, [1, 2]), (1, [3, 4])]⟩ : Vertex ℚ).constraints.filter
        (fun e => decide (e.1 ≤ 0)) ∧
      ∀ k, sub.getConstraint k =
        if k ≤ 0 then (⟨2, [(0, [1, 2]), (1, [3, 4])]⟩ : Vertex ℚ).getConstraint k
        else none :=
  getSubdimension_all_axes ⟨2, [(0, [1, 2]), (1, [3, 4])]⟩ 0
    (by simp [Vertex.Invariant]) (by simp [Vertex.KeysAscending])

theorem copyLoop_isSome (idxs : List Nat) (m : Int) (D : Nat) (cs : List (Int × List K))
    (sub : Vertex K) (hlen : ∀ e ∈ cs, e.2.length = D) (hidx : ∀ idx ∈ idxs, idx < D)
    (hsub : sub.D = idxs.length) : ∃ r, copyLoop idxs m cs sub = some r := by
  induction cs generalizing sub with
  | nil => exact ⟨sub, rfl⟩
  | cons e rest ih =>
    obtain ⟨k, c⟩ := e
    have hc : c.length = D := hlen (k, c) (List.mem_cons_self _ _)
    have hrest : ∀ e ∈ rest, e.2.length = D :=
      fun e he => hlen e (List.mem_cons_of_mem _ he)
    unfold copyLoop
    by_cases hk : k > m
    · rw [if_pos hk]
      exact ih sub hrest hsub
    · rw [if_neg hk, gather_eq_map c idxs (by rw [hc]; exact hidx)]
      simp only [Option.bind_eq_bind, Option.some_bind, Vertex.addConstraint,
        List.length_map, hsub, if_true]
      exact ih _ hrest rfl

/-- C15: for a vertex of dimension `D` (whose vectors have length `D`), every index list
and every `maxDerivativeOrder`, `getSubdimension` returns, with `ok = false` if and only
if some requested index is outside `[0, D)`; when every index is in range it returns
`ok = true`, also for an empty list and for repeated or permuted indices. -/
theorem getSubdimension_ok_iff (v : Vertex K) (subdimensions : List Nat) (m : Int)
    (hv : v.Invariant) :
    ∃ ok sub, v.getSubdimension subdimensions m = some (ok, sub) ∧
      (ok = false ↔ ∃ idx ∈ subdimensions, v.D ≤ idx) ∧
      ((∀ idx ∈ subdimensions, idx < v.D) → ok = true) := by
  by_cases hany : subdimensions.any (fun subdimension => decide (subdimension ≥ v.D)) = true
  · have hex : ∃ idx ∈ subdimensions, v.D ≤ idx := by
      simpa [List.any_eq_true] using hany
    refine ⟨false, Vertex.new subdimensions.length,
      by simp [Vertex.getSubdimension, hany], by simp [hex], ?_⟩
    intro hall
    obtain ⟨idx, hmem, hle⟩ := hex
    exact absurd (hall idx hmem) (by omega)
  · have hall : ∀ idx ∈ subdimensions, idx < v.D := by
      intro idx hmem
      by_contra hge
      exact hany (List.any_eq_true.mpr ⟨idx, hmem, by simpa using hge⟩)
    obtain ⟨r, hr⟩ := copyLoop_isSome subdimensions m v.D v.constraints
      (Vertex.new subdimensions.length) hv hall rfl
    refine ⟨true, r, by simp [Vertex.getSubdimension, hany, hr], ?_, fun _ => rfl⟩
    simp only [Bool.true_eq_false, false_iff, not_exists, not_and, not_le]
    exact hall

/-- Witness for C15: a 2-dimensional vertex with position `(1, 2)` asked for the axes
`[1, 1, 0]`. -/
theorem getSubdimension_ok_iff_witness :
    ∃ ok sub, (⟨2, [(0, [1, 2])]⟩ : Vertex ℚ).getSubdimension [1, 1, 0] 3
        = some (ok, sub) ∧
      (ok = false ↔ ∃ idx ∈ [1, 1, 0], (⟨2, [(0, [1, 2])]⟩ : Vertex ℚ).D ≤ idx) ∧
      ((∀ idx ∈ [1, 1, 0], idx < (⟨2, [(0, [1, 2])]⟩ : Vertex ℚ).D) → ok = true) :=
  getSubdimension_ok_iff ⟨2, [(0, [1, 2])]⟩ [1, 1, 0] 3 (by simp [Vertex.Invariant])

/-! ## Random vertex sequences -/

theorem makeStartOrEnd_eq (v w : Vertex K) (p : List K) (m : Int)
    (h : v.makeStartOrEnd p m = some w) :
    p.length = v.D ∧
      w = ⟨v.D, zeroLoop v.D (mapAssign POSITION p v.constraints) m.toNat⟩ := by
  unfold Vertex.makeStartOrEnd Vertex.addConstraint at h
  split_ifs at h with hlen
  · simp only [Option.bind_eq_bind, Option.some_bind, Option.pure_def,
      Option.some.injEq] at h
    exact ⟨hlen, h.symm⟩
  · simp at h

theorem zeroLoop_single (D : Nat) (p : List K) (n : Nat) :
    zeroLoop D [(POSITION, p)] n =
      (POSITION, p) ::
        (List.range n).map (fun i => (((i + 1 : Nat) : Int), List.replicate D (0 : K))) := by
  induction n with
  | zero => rfl
  | succ n ih =>
    unfold zeroLoop
    rw [ih, mapAssign_append]
    · rw [List.range_succ, List.map_append]
      rfl
    · intro e he
      simp only [List.mem_cons, List.mem_map, List.mem_range] at he
      rcases he with rfl | ⟨i, hi, rfl⟩
      · simp only [POSITION]
        omega
      · simp only
        omega

theorem makeStartOrEnd_new (D : Nat) (p : List K) (m : Int) (w : Vertex K)
    (h : (Vertex.new D : Vertex K).makeStartOrEnd p m = some w) :
    p.length = D ∧ w = startOrEndVertex D p m.toNat := by
  obtain ⟨hlen, hw⟩ := makeStartOrEnd_eq _ _ _ _ h
  refine ⟨hlen, ?_⟩
  rw [hw]
  simp only [Vertex.new, mapAssign, zeroLoop_single, startOrEndVertex]

theorem makeStartOrEnd_positionVertex (D : Nat) (p q : List K) (m : Int) (w : Vertex K)
    (h : (positionVertex D p).makeStartOrEnd q m = some w) :
    q.length = D ∧ w = startOrEndVertex D q m.toNat := by
  obtain ⟨hlen, hw⟩ := makeStartOrEnd_eq _ _ _ _ h
  refine ⟨hlen, ?_⟩
  rw [hw]
  simp only [positionVertex, mapAssign, lt_irrefl, if_false, if_true, zeroLoop_single,
    startOrEndVertex]

theorem positionOrEmpty_startOrEndVertex (D : Nat) (p : List K) (n : Nat) :
    (startOrEndVertex D p n).positionOrEmpty = p := by
  simp [startOrEndVertex, Vertex.positionOrEmpty, Vertex.getConstraint, lookup_cons_eq]

theorem positionOrEmpty_positionVertex (D : Nat) (p : List K) :
    (positionVertex D p).positionOrEmpty = p := by
  simp [positionVertex, Vertex.positionOrEmpty, Vertex.getConstraint, lookup_cons_eq]

theorem drawPosition_length (draws : Nat → K) (pos_min pos_max : List K) (drawn : Nat) :
    (drawPosition draws pos_min pos_max drawn).length = pos_min.length := by
  simp [drawPosition]

theorem rejectionLoop_spec (sqrt : K → K) (draws : Nat → K)
    (pos_min pos_max last_pos : List K) (fuel drawn : Nat) (pos : List K) (drawn2 : Nat)
    (h : rejectionLoop sqrt draws pos_min pos_max last_pos fuel drawn = some (pos, drawn2)) :
    pos.length = pos_min.length ∧ last_pos.length = pos_min.length ∧
      min_distance < distance sqrt last_pos pos := by
  induction fuel generalizing drawn with
  | zero => simp [rejectionLoop] at h
  | succ fuel ih =>
    unfold rejectionLoop at h
    simp only [Option.bind_eq_bind, Option.pure_def] at h
    cases hd : vsub (drawPosition draws pos_min pos_max drawn) last_pos with
    | none => simp [hd] at h
    | some diff =>
      simp only [hd, Option.some_bind] at h
      have hlen : (drawPosition draws pos_min pos_max drawn).length = last_pos.length := by
        by_contra hne
        rw [(vsub_eq_none_iff _ _).mpr hne] at hd
        simp at hd
      rw [vsub_of_length_eq _ _ hlen] at hd
      simp only [Option.some.injEq] at hd
      split_ifs at h with hfar
      · simp only [Option.some.injEq, Prod.mk.injEq] at h
        obtain ⟨hpos, -⟩ := h
        subst hpos
        refine ⟨drawPosition_length _ _ _ _, ?_, ?_⟩
        · rw [← hlen, drawPosition_length]
        · rw [← hd] at hfar
          exact hfar
      · exact ih _ h

theorem positionAt_append_left (vs : List (Vertex K)) (v : Vertex K) (i : Nat)
    (hi : i < vs.length) : positionAt (vs ++ [v]) i = positionAt vs i := by
  simp [positionAt, List.getElem?_append_left hi]

theorem positionAt_append_length (vs : List (Vertex K)) (v : Vertex K) :
    positionAt (vs ++ [v]) vs.length = v.positionOrEmpty := by
  simp [positionAt]

theorem vertexLoop_spec (sqrt : K → K) (draws : Nat → K) (fuel : Nat)
    (pos_min pos_max : List K) (first : Vertex K) (first_pos : List K)
    (hfirst : first.positionOrEmpty = first_pos)
    (n : Nat) (vs : List (Vertex K)) (last : List K) (drawn : Nat)
    (h : vertexLoop sqrt draws fuel pos_min pos_max first first_pos n
      = some (vs, last, drawn)) :
    vs.length = n + 1 ∧ vs[0]? = some first ∧
    (∀ i, 1 ≤ i → i < n + 1 →
      vs[i]? = some (positionVertex pos_min.length (positionAt vs i)) ∧
        (positionAt vs i).length = pos_min.length) ∧
    positionAt vs n = last ∧
    (∀ i, i < n → min_distance < distance sqrt (positionAt vs i) (positionAt vs (i + 1))) := by
  induction n generalizing vs last drawn with
  | zero =>
    simp only [vertexLoop, Option.some.injEq, Prod.mk.injEq] at h
    obtain ⟨rfl, rfl, -⟩ := h
    refine ⟨rfl, rfl, fun i h1 h2 => by omega, ?_, fun i hi => by omega⟩
    simp [positionAt, hfirst]
  | succ n ih =>
    unfold vertexLoop at h
    cases hs : vertexLoop sqrt draws fuel pos_min pos_max first first_pos n with
    | none => simp [hs] at h
    | some state =>
      obtain ⟨vs0, last0, drawn0⟩ := state
      simp only [hs, Option.bind_eq_bind, Option.some_bind] at h
      cases hr : rejectionLoop sqrt draws pos_min pos_max last0 fuel drawn0 with
      | none => simp [hr] at h
      | some accepted =>
        obtain ⟨pos, drawn2⟩ := accepted
        obtain ⟨hposlen, -, hfar⟩ := rejectionLoop_spec sqrt draws pos_min pos_max last0
          fuel drawn0 pos drawn2 hr
        simp only [hr, Option.some_bind, Vertex.addConstraint, Vertex.new, hposlen, if_true,
          Option.pure_def, Option.some.injEq, Prod.mk.injEq] at h
        obtain ⟨rfl, rfl, -⟩ := h
        obtain ⟨hlen, h0, hint, hlast, hdist⟩ := ih vs0 last0 drawn0 hs
        have hv : positionAt (vs0 ++ [(⟨pos_min.length, mapAssign POSITION pos []⟩ :
            Vertex K)]) (n + 1) = pos := by
          rw [← hlen, positionAt_append_length]
          exact positionOrEmpty_positionVertex pos_min.length pos
        refine ⟨by simp [hlen], ?_, ?_, hv, ?_⟩
        · rw [List.getElem?_append_left (by omega)]
          exact h0
        · intro i h1 h2
          rcases Nat.lt_succ_iff_lt_or_eq.mp h2 with hlt | heq
          · rw [List.getElem?_append_left (by omega),
              positionAt_append_left vs0 _ i (by omega)]
            exact hint i h1 hlt
          · subst heq
            rw [hv]
            refine ⟨?_, hposlen⟩
            rw [List.getElem?_append_right (by omega)]
            simp [hlen, positionVertex, mapAssign]
        · intro i hi
          rcases Nat.lt_succ_iff_lt_or_eq.mp hi with hlt | heq
          · rw [positionAt_append_left vs0 _ i (by omega),
              positionAt_append_left vs0 _ (i + 1) (by omega)]
            exact hdist i hlt
          · subst heq
            rw [hv, positionAt_append_left vs0 _ i (by omega), hlast]
            exact hfar

theorem castToInt_ge_one (n : Nat) (h : castToInt n ≥ 1) : 1 ≤ n := by
  unfold castToInt at h
  split_ifs at h <;> omega

theorem replaceLast_getElem? (vs : List (Vertex K)) (w : Vertex K) (n : Nat)
    (hlen : vs.length = n + 1) :
    (vs.dropLast ++ [w]).length = n + 1 ∧ (vs.dropLast ++ [w])[n]? = some w ∧
      ∀ i, i < n → (vs.dropLast ++ [w])[i]? = vs[i]? := by
  have hd : vs.dropLast.length = n := by simp [hlen]
  refine ⟨by simp [hd], ?_, ?_⟩
  · rw [List.getElem?_append_right (by omega)]
    simp [hd]
  · intro i hi
    rw [List.getElem?_append_left (by omega), List.getElem?_dropLast, if_pos (by omega)]

theorem createRandomVertices_shape (sqrt : K → K) (generator : Nat → Nat → K) (fuel : Nat)
    (m : Int) (n : Nat) (pos_min pos_max : List K) (seed : Nat) (result : List (Vertex K))
    (h : createRandomVertices sqrt generator fuel m n pos_min pos_max seed = some result) :
    1 ≤ n ∧ 0 < m ∧ result.length = n + 1 ∧
    result[0]? = some (startOrEndVertex pos_min.length (positionAt result 0) m.toNat) ∧
    result[n]? = some (startOrEndVertex pos_min.length (positionAt result n) m.toNat) ∧
    (∀ i, 1 ≤ i → i < n →
      result[i]? = some (positionVertex pos_min.length (positionAt result i))) ∧
    (∀ i, i < n + 1 → (positionAt result i).length = pos_min.length) ∧
    (∀ i, i < n →
      min_distance < distance sqrt (positionAt result i) (positionAt result (i + 1))) := by
  by_cases hn : castToInt n ≥ 1
  swap
  · simp [createRandomVertices, hn] at h
  by_cases hlen : pos_min.length = pos_max.length
  swap
  · simp [createRandomVertices, hlen] at h
  by_cases hm : m > 0
  swap
  · simp [createRandomVertices, hm] at h
  have hn1 := castToInt_ge_one n hn
  unfold createRandomVertices at h
  rw [if_pos hn, if_pos hlen] at h
  simp only [hm, if_true, Option.bind_eq_bind, Option.pure_def] at h
  cases hrange : vsub pos_max pos_min with
  | none => simp [hrange] at h
  | some range =>
    simp only [hrange, Option.some_bind] at h
    by_cases hnorm : norm sqrt range ≥ 0.2
    swap
    · simp [hnorm] at h
    simp only [hnorm, if_true] at h
    cases hf : (Vertex.new pos_min.length : Vertex K).makeStartOrEnd
        (drawPosition (generator seed) pos_min pos_max 0) m with
    | none => simp [hf] at h
    | some front =>
      obtain ⟨hp0, hfront⟩ := makeStartOrEnd_new _ _ _ _ hf
      simp only [hf, Option.some_bind, Nat.add_sub_cancel] at h
      cases hs : vertexLoop sqrt (generator seed) fuel pos_min pos_max front
          (drawPosition (generator seed) pos_min pos_max 0) n with
      | none => simp [hs] at h
      | some state =>
        obtain ⟨vs, last, drawn⟩ := state
        obtain ⟨hvlen, hv0, hvint, hvlast, hvdist⟩ := vertexLoop_spec sqrt (generator seed)
          fuel pos_min pos_max front _
          (by rw [hfront, positionOrEmpty_startOrEndVertex]) n vs last drawn hs
        simp only [hs, Option.some_bind] at h
        have hback : vs.getLast? = some (positionVertex pos_min.length last) := by
          rw [List.getLast?_eq_getElem?, hvlen, Nat.add_sub_cancel,
            (hvint n hn1 (by omega)).1, hvlast]
        have hlastlen : last.length = pos_min.length := by
          rw [← hvlast]
          exact (hvint n hn1 (by omega)).2
        simp only [hback, Option.some_bind] at h
        cases hb : (positionVertex pos_min.length last).makeStartOrEnd last m with
        | none => simp [hb] at h
        | some back =>
          obtain ⟨-, hbackeq⟩ := makeStartOrEnd_positionVertex _ _ _ _ _ hb
          simp only [hb, Option.some_bind, Option.some.injEq] at h
          obtain ⟨hrlen, hrn, hri⟩ := replaceLast_getElem? vs back n hvlen
          rw [h] at hrlen hrn hri
          have hpos : ∀ i, i < n + 1 → positionAt result i = positionAt vs i := by
            intro i hi
            rcases Nat.lt_succ_iff_lt_or_eq.mp hi with hlt | heq
            · simp only [positionAt, hri i hlt]
            · subst heq
              rw [hvlast]
              simp only [positionAt, hrn, Option.map_some', Option.getD_some, hbackeq,
                positionOrEmpty_startOrEndVertex]
          have hpos0 : positionAt vs 0 = drawPosition (generator seed) pos_min pos_max 0 := by
            simp only [positionAt, hv0, Option.map_some', Option.getD_some, hfront,
              positionOrEmpty_startOrEndVertex]
          refine ⟨hn1, hm, hrlen, ?_, ?_, ?_, ?_, ?_⟩
          · rw [hri 0 (by omega), hv0, hfront, hpos 0 (by omega), hpos0]
          · rw [hrn, hbackeq, hpos n (by omega), hvlast]
          · intro i h1 h2
            rw [hri i h2, hpos i (by omega)]
            exact (hvint i h1 (by omega)).1
          · intro i hi
            rw [hpos i hi]
            rcases Nat.eq_zero_or_pos i with h0 | hipos
            · subst h0
              rw [hpos0]
              exact hp0
            · exact (hvint i hipos hi).2
          · intro i hi
            rw [hpos i (by omega), hpos (i + 1) (by omega)]
            exact hvdist i hi

theorem getConstraint_startOrEndVertex (D : Nat) (p : List K) (n : Nat) (k : Int) :
    (startOrEndVertex D p n).getConstraint k =
      if k = POSITION then some p
      else if 1 ≤ k ∧ k ≤ (n : Int) then some (List.replicate D 0) else none := by
  have h : (startOrEndVertex D p n).constraints = zeroLoop D [(POSITION, p)] n := by
    rw [zeroLoop_single]
    rfl
  simp only [Vertex.getConstraint, h, lookup_zeroLoop, lookup_cons_eq]
  by_cases hk : k = POSITION
  · have h2 : ¬ (1 ≤ k ∧ k ≤ (n : Int)) := by
      rw [hk]
      simp [POSITION]
    rw [if_neg h2, if_pos hk, if_pos hk]
  · rw [if_neg hk, if_neg hk]
    rfl

/-- C16: whenever `createRandomVertices` returns (for any seed and any stream of random
draws), the positions of every two consecutive vertices of the result are at Euclidean
distance strictly greater than `0.2`. -/
theorem createRandomVertices_min_separation (generator : Nat → Nat → ℝ) (fuel : Nat)
    (maxDerivative : Int) (nSegments : Nat) (posMin posMax : List ℝ) (seed : Nat)
    (result : List (Vertex ℝ))
    (h : createRandomVertices Real.sqrt generator fuel maxDerivative nSegments posMin posMax
      seed = some result) :
    ∀ i, i + 1 < result.length →
      0.2 < distance Real.sqrt (positionAt result i) (positionAt result (i + 1)) := by
  obtain ⟨-, -, hlen, -, -, -, -, hdist⟩ := createRandomVertices_shape Real.sqrt generator
    fuel maxDerivative nSegments posMin posMax seed result h
  intro i hi
  exact hdist i (by omega)

/-- C18: whenever `createRandomVertices(maxDerivative, nSegments, posMin, posMax, seed)`
returns, the result has exactly `nSegments + 1` vertices of dimension `posMin.length`; the
first and the last vertex carry a position constraint plus an all-zero constraint for
every derivative order from 1 through `maxDerivative` (and nothing else), and every
interior vertex carries a position constraint and no other constraint. -/
theorem createRandomVertices_vertices (generator : Nat → Nat → ℝ) (fuel : Nat)
    (maxDerivative : Int) (nSegments : Nat) (posMin posMax : List ℝ) (seed : Nat)
    (result : List (Vertex ℝ))
    (h : createRandomVertices Real.sqrt generator fuel maxDerivative nSegments posMin posMax
      seed = some result) :
    result.length = nSegments + 1 ∧
    (∀ v ∈ result, v.D = posMin.length) ∧
    (∀ i, i = 0 ∨ i = nSegments →
      ∃ w p, result[i]? = some w ∧ p.length = posMin.length ∧
        w = startOrEndVertex posMin.length p maxDerivative.toNat ∧
        ∀ k : Int, w.getConstraint k =
          if k = POSITION then some p
          else if 1 ≤ k ∧ k ≤ maxDerivative then some (List.replicate posMin.length 0)
          else none) ∧
    (∀ i, 1 ≤ i → i < nSegments →
      ∃ p, result[i]? = some (positionVertex posMin.length p) ∧
        p.length = posMin.length ∧
        (positionVertex posMin.length p).constraints = [(POSITION, p)]) := by
  obtain ⟨hn, hm, hlen, h0, hlast, hint, hplen, -⟩ := createRandomVertices_shape Real.sqrt
    generator fuel maxDerivative nSegments posMin posMax seed result h
  have hse : ∀ i, i = 0 ∨ i = nSegments →
      result[i]? = some (startOrEndVertex posMin.length (positionAt result i)
        maxDerivative.toNat) := by
    rintro i (rfl | rfl)
    · exact h0
    · exact hlast
  refine ⟨hlen, ?_, ?_, ?_⟩
  · intro v hv
    obtain ⟨i, hi, rfl⟩ := List.getElem_of_mem hv
    have hget : result[i]? = some result[i] := List.getElem?_eq_getElem hi
    by_cases hends : i = 0 ∨ i = nSegments
    · rw [hse i hends] at hget
      rw [← Option.some.inj hget]
      rfl
    · rw [hint i (by omega) (by omega)] at hget
      rw [← Option.some.inj hget]
      rfl
  · intro i hi
    refine ⟨_, positionAt result i, hse i hi, hplen i (by omega), rfl, fun k => ?_⟩
    rw [getConstraint_startOrEndVertex]
    have hiff : (1 ≤ k ∧ k ≤ (maxDerivative.toNat : Int)) ↔
        (1 ≤ k ∧ k ≤ maxDerivative) := by
      omega
    simp only [hiff]
  · intro i h1 h2
    exact ⟨positionAt result i, hint i h1 h2, hplen i (by omega), rfl⟩

theorem createRandomVertices_sample :
    createRandomVertices Real.sqrt sampleGenerator 1 1 1 [0] [1] 0 =
      some [startOrEndVertex 1 [0] 1, startOrEndVertex 1 [1 / 2] 1] := by
  have hd0 : drawPosition (sampleGenerator 0 : Nat → ℝ) [0] [1] 0 = [0] := by
    simp [drawPosition, sampleGenerator, List.range_succ]
  have hd1 : drawPosition (sampleGenerator 0 : Nat → ℝ) [0] [1] 1 = [1 / 2] := by
    simp [drawPosition, sampleGenerator, List.range_succ]
  have hs : Real.sqrt ((1 : ℝ) / 2 * (1 / 2)) = 1 / 2 := Real.sqrt_mul_self (by norm_num)
  have hfar : norm Real.sqrt [(1 : ℝ) / 2 - 0] > min_distance := by
    simp only [norm, squaredNorm, List.map_cons, List.map_nil, List.sum_cons, List.sum_nil,
      sub_zero, add_zero, hs, min_distance]
    norm_num
  have hrej : rejectionLoop Real.sqrt (sampleGenerator 0) [0] [1] [0] 1 1
      = some ([(1 : ℝ) / 2], 2) := by
    simp only [rejectionLoop, hd1, vsub, List.length_singleton, if_true, List.zipWith_cons_cons,
      List.zipWith_nil_right, Option.bind_eq_bind, Option.some_bind, hfar, Option.pure_def]
  have hfront : (Vertex.new 1 : Vertex ℝ).makeStartOrEnd [0] 1
      = some (startOrEndVertex 1 [0] 1) := by
    simp [Vertex.makeStartOrEnd, Vertex.addConstraint, Vertex.new, zeroLoop_single,
      startOrEndVertex, mapAssign]
  have hloop : vertexLoop Real.sqrt (sampleGenerator 0) 1 [0] [1] (startOrEndVertex 1 [0] 1)
      [0] 1 = some ([startOrEndVertex 1 [0] 1, positionVertex 1 [1 / 2]], [1 / 2], 2) := by
    simp [vertexLoop, hrej, Vertex.addConstraint, Vertex.new, positionVertex, mapAssign]
  have hback : (positionVertex 1 [(1 : ℝ) / 2]).makeStartOrEnd [1 / 2] 1
      = some (startOrEndVertex 1 [1 / 2] 1) := by
    simp [Vertex.makeStartOrEnd, Vertex.addConstraint, positionVertex, zeroLoop_single,
      startOrEndVertex, mapAssign]
  have hrange : norm Real.sqrt [(1 : ℝ) - 0] ≥ 0.2 := by
    simp only [norm, squaredNorm, List.map_cons, List.map_nil, List.sum_cons, List.sum_nil,
      sub_zero, add_zero, mul_one, Real.sqrt_one]
    norm_num
  have hcast : castToInt 1 ≥ 1 := by decide
  unfold createRandomVertices
  rw [if_pos hcast, if_pos (show ([0] : List ℝ).length = ([1] : List ℝ).length from rfl)]
  simp only [vsub, List.length_singleton, if_true, List.zipWith_cons_cons,
    List.zipWith_nil_right, Option.bind_eq_bind, Option.some_bind, hrange, hd0, hfront,
    Nat.add_sub_cancel, hloop, List.getLast?, List.getLast, hback, Option.pure_def,
    List.dropLast, List.cons_append, List.nil_append, gt_iff_lt, zero_lt_one]

/-- Witness for C16: the run on the box `[0, 1]` of the line with draws `0` and `1/2`
returns two vertices, at `0` and at `1/2`. -/
theorem createRandomVertices_min_separation_witness :
    (0.2 : ℝ) < distance Real.sqrt
      (positionAt [startOrEndVertex 1 [0] 1, startOrEndVertex 1 [(1 : ℝ) / 2] 1] 0)
      (positionAt [startOrEndVertex 1 [0] 1, startOrEndVertex 1 [(1 : ℝ) / 2] 1] (0 + 1)) :=
  createRandomVertices_min_separation sampleGenerator 1 1 1 [0] [1] 0 _
    createRandomVertices_sample 0 (by simp)

/-- Witness for C18: the run on the box `[0, 1]` of the line with draws `0` and `1/2`. -/
theorem createRandomVertices_vertices_witness :
    [startOrEndVertex 1 [0] 1, startOrEndVertex 1 [(1 : ℝ) / 2] 1].length = 1 + 1 ∧
    (∀ v ∈ [startOrEndVertex 1 [0] 1, startOrEndVertex 1 [(1 : ℝ) / 2] 1],
      v.D = ([0] : List ℝ).length) ∧
    (∀ i, i = 0 ∨ i = 1 →
      ∃ w p, [startOrEndVertex 1 [0] 1, startOrEndVertex 1 [(1 : ℝ) / 2] 1][i]? = some w ∧
        p.length = ([0] : List ℝ).length ∧
        w = startOrEndVertex ([0] : List ℝ).length p (1 : Int).toNat ∧
        ∀ k : Int, w.getConstraint k =
          if k = POSITION then some p
          else if 1 ≤ k ∧ k ≤ 1 then some (List.replicate ([0] : List ℝ).length 0)
          else none) ∧
    (∀ i, 1 ≤ i → i < 1 →
      ∃ p, [startOrEndVertex 1 [0] 1, startOrEndVertex 1 [(1 : ℝ) / 2] 1][i]? =
          some (positionVertex ([0] : List ℝ).length p) ∧
        p.length = ([0] : List ℝ).length ∧
        (positionVertex ([0] : List ℝ).length p).constraints = [(POSITION, p)]) :=
  createRandomVertices_vertices sampleGenerator 1 1 1 [0] [1] 0 _
    createRandomVertices_sample

/-! ## A box the rejection loop cannot leave -/

theorem drawPosition_single (draws : Nat → K) (a b : K) (k : Nat) :
    drawPosition draws [a] [b] k = [a + draws k * (b - a)] := by
  simp [drawPosition, List.range_succ]

theorem norm_single (z : ℝ) : norm Real.sqrt [z] = |z| := by
  simp only [norm, squaredNorm, List.map_cons, List.map_nil, List.sum_cons, List.sum_nil,
    add_zero]
  exact Real.sqrt_mul_self_eq_abs z

theorem rejectionLoop_small_box (draws : Nat → ℝ) (hd : ∀ k, 0 ≤ draws k ∧ draws k < 1)
    (x : ℝ) (hx0 : 0 ≤ x) (hx1 : x ≤ 0.2) (fuel drawn : Nat) :
    rejectionLoop Real.sqrt draws [0] [0.2] [x] fuel drawn = none := by
  induction fuel generalizing drawn with
  | zero => rfl
  | succ fuel ih =>
    have hnot : ¬ (norm Real.sqrt [0 + draws drawn * (0.2 - 0) - x] > min_distance) := by
      rw [norm_single, min_distance]
      obtain ⟨h0, h1⟩ := hd drawn
      rw [not_lt, abs_le]
      constructor <;> nlinarith
    simp only [rejectionLoop, drawPosition_single, vsub, List.length_singleton, if_true,
      List.zipWith_cons_cons, List.zipWith_nil_right, Option.bind_eq_bind, Option.some_bind,
      hnot, if_false]
    exact ih _

/-- C17 on the code: with `nSegments = 1`, `posMin = [0]`, `posMax = [0.2]` and
`maxDerivative = 1` every `CHECK` of `createRandomVertices` passes, yet no two points of
the box are more than `0.2` apart, so for every stream of draws in `[0, 1)`, every seed and
every bound on the number of passes the rejection loop never breaks and the function does
not return. -/
theorem createRandomVertices_small_box_diverges (generator : Nat → Nat → ℝ)
    (hgen : ∀ seed k, 0 ≤ generator seed k ∧ generator seed k < 1) (fuel seed : Nat) :
    (castToInt 1 ≥ 1 ∧ ([0] : List ℝ).length = ([0.2] : List ℝ).length ∧
      vsub ([0.2] : List ℝ) [0] = some [0.2 - 0] ∧
      norm Real.sqrt [(0.2 : ℝ) - 0] ≥ 0.2 ∧ (1 : Int) > 0) ∧
    createRandomVertices Real.sqrt generator fuel 1 1 [0] [0.2] seed = none ∧
    (∀ p q : ℝ, 0 ≤ p → p ≤ 0.2 → 0 ≤ q → q ≤ 0.2 →
      ¬ (0.2 < distance Real.sqrt [p] [q])) := by
  have hcast : castToInt 1 ≥ 1 := by decide
  have hrange : norm Real.sqrt [(0.2 : ℝ) - 0] ≥ 0.2 := by
    rw [norm_single, sub_zero, abs_of_nonneg (by norm_num)]
  have hvsub : vsub ([0.2] : List ℝ) [0] = some [0.2 - 0] := by
    simp [vsub]
  refine ⟨⟨hcast, rfl, hvsub, hrange, by decide⟩, ?_, ?_⟩
  · obtain ⟨h0, h1⟩ := hgen seed 0
    have hrej := rejectionLoop_small_box (generator seed) (hgen seed)
      (0 + generator seed 0 * (0.2 - 0)) (by nlinarith) (by nlinarith) fuel 1
    unfold createRandomVertices
    rw [if_pos hcast, if_pos (show ([0] : List ℝ).length = ([0.2] : List ℝ).length from rfl)]
    simp only [hvsub, Option.bind_eq_bind, Option.some_bind, hrange, if_true,
      drawPosition_single, Nat.add_sub_cancel, vertexLoop, List.length_singleton, hrej,
      Option.none_bind, gt_iff_lt, zero_lt_one]
    cases (Vertex.new 1 : Vertex ℝ).makeStartOrEnd [0 + generator seed 0 * (0.2 - 0)] 1 <;>
      rfl
  · intro p q hp0 hp1 hq0 hq1
    simp only [distance, List.zipWith_cons_cons, List.zipWith_nil_right]
    rw [norm_single, not_lt, abs_le]
    constructor <;> linarith

/-- Witness for C17 on the code: the example stream, seed `0`, at most 100 passes. -/
theorem createRandomVertices_small_box_diverges_witness :
    createRandomVertices Real.sqrt sampleGenerator 100 1 1 [0] [0.2] 0 = none :=
  (createRandomVertices_small_box_diverges sampleGenerator (by
    intro seed k
    unfold sampleGenerator
    split_ifs with hk
    · have hk' : (k : ℝ) ≤ 1 := by exact_mod_cast Nat.le_of_lt_succ hk
      constructor
      · positivity
      · linarith
    · norm_num) 100 0).2.1


/-! ## Segment times against the travel time at full speed -/

theorem distance_nonneg (p q : List ℝ) : 0 ≤ distance Real.sqrt p q :=
  Real.sqrt_nonneg _

theorem rampTriangularTime_ge (d vMax aMax : ℝ) (hd : 0 ≤ d) (hvMax : 0 < vMax)
    (haMax : 0 < aMax) (hshort : d < 2 * (0.5 * vMax * (vMax / aMax))) :
    d / vMax ≤ rampTriangularTime Real.sqrt d aMax := by
  have hb : 2 * (0.5 * vMax * (vMax / aMax)) = vMax ^ 2 / aMax := by
    field_simp
    ring
  rw [hb, lt_div_iff₀ haMax] at hshort
  have hda : 0 ≤ d / aMax := div_nonneg hd haMax.le
  have hs0 : 0 ≤ Real.sqrt (d / aMax) := Real.sqrt_nonneg _
  have hs2 : Real.sqrt (d / aMax) * Real.sqrt (d / aMax) = d / aMax := Real.mul_self_sqrt hda
  have hd2 : d = Real.sqrt (d / aMax) * Real.sqrt (d / aMax) * aMax := by
    rw [hs2]
    field_simp
  have hsa : Real.sqrt (d / aMax) * aMax ≤ vMax := by
    by_contra hnot
    rw [not_le] at hnot
    have h1 : vMax * vMax < (Real.sqrt (d / aMax) * aMax) * (Real.sqrt (d / aMax) * aMax) :=
      mul_self_lt_mul_self hvMax.le hnot
    nlinarith
  unfold rampTriangularTime
  rw [div_le_iff₀ hvMax]
  nlinarith

theorem rampTrapezoidalTime_ge (d vMax aMax : ℝ) (hvMax : 0 < vMax) (haMax : 0 < aMax) :
    d / vMax ≤ rampTrapezoidalTime d vMax aMax := by
  have hpos : 0 < vMax / aMax := div_pos hvMax haMax
  have h : rampTrapezoidalTime d vMax aMax = d / vMax + vMax / aMax := by
    unfold rampTrapezoidalTime
    field_simp
    ring
  rw [h]
  linarith

theorem velocityRampTime_ge (d vMax aMax : ℝ) (hd : 0 ≤ d) (hvMax : 0 < vMax)
    (haMax : 0 < aMax) : d / vMax ≤ velocityRampTime Real.sqrt d vMax aMax := by
  unfold velocityRampTime
  split_ifs with h
  · exact rampTriangularTime_ge d vMax aMax hd hvMax haMax h
  · exact rampTrapezoidalTime_ge d vMax aMax hvMax haMax

/-- C23: for all start and goal positions of equal dimension and all `vMax > 0`,
`aMax > 0`, `computeTimeVelocityRamp(start, goal, vMax, aMax) >= |goal - start| / vMax`, in
the triangular and in the trapezoidal branch; hence every duration
`estimateSegmentTimesVelocityRamp` returns on a valid vertex sequence is at least the
Euclidean travel time of its segment at `vMax`. -/
theorem computeTimeVelocityRamp_ge_travel_time (vMax aMax : ℝ)
    (hvMax : 0 < vMax) (haMax : 0 < aMax) :
    (∀ start goal : List ℝ, start.length = goal.length →
      ∃ t, computeTimeVelocityRamp Real.sqrt start goal vMax aMax = some t ∧
        distance Real.sqrt start goal / vMax ≤ t) ∧
    (∀ x : ℝ, 0 ≤ x → x < 2 * (0.5 * vMax * (vMax / aMax)) →
      x / vMax ≤ rampTriangularTime Real.sqrt x aMax) ∧
    (∀ x : ℝ, x / vMax ≤ rampTrapezoidalTime x vMax aMax) ∧
    (∀ (d : Nat) (vs : List (Vertex ℝ)) (timeFactor : ℝ), ValidVertices d vs →
      ∃ l, estimateSegmentTimesVelocityRamp Real.sqrt vs vMax aMax timeFactor = some l ∧
        l.length = vs.length - 1 ∧
        ∀ i, i < vs.length - 1 →
          ∃ t, l[i]? = some t ∧
            distance Real.sqrt (positionAt vs i) (positionAt vs (i + 1)) / vMax ≤ t) := by
  refine ⟨?_, ?_, ?_, ?_⟩
  · intro start goal hlen
    exact ⟨_, computeTimeVelocityRamp_of_length_eq Real.sqrt start goal vMax aMax hlen,
      velocityRampTime_ge _ vMax aMax (distance_nonneg _ _) hvMax haMax⟩
  · intro x hx hshort
    exact rampTriangularTime_ge x vMax aMax hx hvMax haMax hshort
  · intro x
    exact rampTrapezoidalTime_ge x vMax aMax hvMax haMax
  · intro d vs timeFactor hv
    obtain ⟨l, hl, hlen, hget⟩ :=
      velocityRamp_some Real.sqrt hv.1 (positionAt_length hv) vMax aMax timeFactor
    refine ⟨l, hl, hlen, fun i hi => ?_⟩
    have hb := velocityRampSegmentTime_valid Real.sqrt (positionAt_length hv)
      vMax aMax i (by omega)
    exact ⟨_, by rw [hget i hi, hb], le_trans
      (velocityRampTime_ge _ vMax aMax (distance_nonneg _ _) hvMax haMax)
      (le_max_right _ _)⟩

/-- Witness for C23: `vMax = aMax = 1`, between the 1-dimensional positions `0` and `1`
and on the unit square. -/
theorem computeTimeVelocityRamp_ge_travel_time_witness :
    (∃ t, computeTimeVelocityRamp Real.sqrt [0] [1] 1 1 = some t ∧
      distance Real.sqrt [0] [1] / 1 ≤ t) ∧
    (∃ l, estimateSegmentTimesVelocityRamp Real.sqrt
        (unitSquareVertices : List (Vertex ℝ)) 1 1 1 = some l ∧
      l.length = (unitSquareVertices : List (Vertex ℝ)).length - 1 ∧
      ∀ i, i < (unitSquareVertices : List (Vertex ℝ)).length - 1 →
        ∃ t, l[i]? = some t ∧
          distance Real.sqrt (positionAt unitSquareVertices i)
            (positionAt unitSquareVertices (i + 1)) / 1 ≤ t) :=
  ⟨(computeTimeVelocityRamp_ge_travel_time 1 1 one_pos one_pos).1 [0] [1] rfl,
    (computeTimeVelocityRamp_ge_travel_time 1 1 one_pos one_pos).2.2.2 3
      unitSquareVertices 1 unitSquareVertices_valid⟩

theorem bacaCruiseTime_ge (d vMax aMax : ℝ) (hvMax : 0 < vMax) (haMax : 0 < aMax) :
    d / vMax - vMax / aMax ≤ bacaCruiseTime d vMax aMax ∧
      (d < vMax ^ 2 / aMax → bacaCruiseTime d vMax aMax = d / vMax) ∧
      (¬ d < vMax ^ 2 / aMax → bacaCruiseTime d vMax aMax = d / vMax - vMax / aMax) := by
  have hpos : 0 < vMax / aMax := div_pos hvMax haMax
  have hlong : (d - vMax ^ 2 / aMax) / vMax = d / vMax - vMax / aMax := by
    field_simp
    ring
  unfold bacaCruiseTime
  refine ⟨?_, ?_, ?_⟩
  · split_ifs
    · linarith
    · rw [hlong]
  · intro h
    rw [if_pos (by linarith)]
  · intro h
    rw [if_neg (by linarith), hlong]

theorem bacaPhase_ge (c A s vMax aMax : ℝ) (hc0 : 0 ≤ c) (hc1 : c ≤ 1)
    (hA : vMax / aMax ≤ A) (hs : vMax / aMax ≤ s) (hva : 0 ≤ vMax / aMax) :
    c * (vMax / aMax) ≤ min (c * A) s := by
  apply le_min
  · exact mul_le_mul_of_nonneg_left hA hc0
  · calc c * (vMax / aMax) ≤ 1 * (vMax / aMax) := mul_le_mul_of_nonneg_right hc1 hva
      _ = vMax / aMax := one_mul _
      _ ≤ s := hs

theorem bacaTime_ge (cEntry cExit d vMax aMax jMax : ℝ)
    (he0 : 0 ≤ cEntry) (he1 : cEntry ≤ 1) (hx0 : 0 ≤ cExit) (hx1 : cExit ≤ 1)
    (hd : 0 ≤ d) (hvMax : 0 < vMax) (haMax : 0 < aMax) (hjMax : 0 < jMax) :
    d / vMax - vMax / aMax ≤ bacaTime Real.sqrt cEntry cExit d vMax aMax jMax ∧
      ((d < vMax ^ 2 / aMax ∨ 1 ≤ cEntry + cExit) →
        d / vMax ≤ bacaTime Real.sqrt cEntry cExit d vMax aMax jMax) := by
  have hva : 0 < vMax / aMax := div_pos hvMax haMax
  have haj : 0 < aMax / jMax := div_pos haMax hjMax
  have hs0 : 0 ≤ Real.sqrt (d / aMax) := Real.sqrt_nonneg _
  have hacc1 : 0 ≤ min (cEntry * (vMax / aMax + aMax / jMax)) (Real.sqrt (d / aMax)) :=
    le_min (mul_nonneg he0 (by linarith)) hs0
  have hacc2 : 0 ≤ min (cExit * (vMax / aMax + aMax / jMax)) (Real.sqrt (d / aMax)) :=
    le_min (mul_nonneg hx0 (by linarith)) hs0
  obtain ⟨hc, hcshort, hclong⟩ := bacaCruiseTime_ge d vMax aMax hvMax haMax
  have hmax := le_max_right (0.01 : ℝ) (bacaCruiseTime d vMax aMax
    + min (cEntry * (vMax / aMax + aMax / jMax)) (Real.sqrt (d / aMax))
    + min (cExit * (vMax / aMax + aMax / jMax)) (Real.sqrt (d / aMax)))
  unfold bacaTime
  refine ⟨by linarith, ?_⟩
  intro hcase
  by_cases hshort : d < vMax ^ 2 / aMax
  · rw [hcshort hshort] at hmax ⊢
    linarith
  · have hsum : 1 ≤ cEntry + cExit := by
      rcases hcase with h | h
      · exact absurd h hshort
      · exact h
    have hs : vMax / aMax ≤ Real.sqrt (d / aMax) := by
      apply Real.le_sqrt_of_sq_le
      have hsq : (vMax / aMax) ^ 2 = vMax ^ 2 / aMax / aMax := by
        field_simp
        ring
      rw [hsq]
      exact div_le_div_of_nonneg_right (not_lt.mp hshort) haMax.le
    have h1 := bacaPhase_ge cEntry (vMax / aMax + aMax / jMax) (Real.sqrt (d / aMax))
      vMax aMax he0 he1 (by linarith) hs hva.le
    have h2 := bacaPhase_ge cExit (vMax / aMax + aMax / jMax) (Real.sqrt (d / aMax))
      vMax aMax hx0 hx1 (by linarith) hs hva.le
    rw [hclong hshort] at hmax ⊢
    nlinarith

theorem entryCoefficient_mem_unit (vs : List (Vertex ℝ)) (i : Nat) :
    0 ≤ entryCoefficient Real.sqrt vs i ∧ entryCoefficient Real.sqrt vs i ≤ 1 := by
  unfold entryCoefficient
  split_ifs
  · exact ⟨zero_le_one, le_refl 1⟩
  · exact turnCoefficient_mem_unit _ _ _

theorem exitCoefficient_mem_unit (vs : List (Vertex ℝ)) (i : Nat) :
    0 ≤ exitCoefficient Real.sqrt vs i ∧ exitCoefficient Real.sqrt vs i ≤ 1 := by
  unfold exitCoefficient
  split_ifs
  · exact ⟨zero_le_one, le_refl 1⟩
  · exact turnCoefficient_mem_unit _ _ _

/-- C22 as the code has it: on a valid vertex sequence with `vMax, aMax, jMax > 0` every
duration `estimateSegmentTimesBaca` returns is at least `d/vMax - vMax/aMax`, with `d` the
segment's length; it is at least `d/vMax` for the first and for the last segment, for
every segment shorter than `vMax^2/aMax`, and for every segment whose entry and exit
coefficients add up to at least 1. -/
theorem estimateSegmentTimesBaca_travel_time (d : Nat) (vs : List (Vertex ℝ))
    (vMax aMax jMax : ℝ) (hv : ValidVertices d vs)
    (hvMax : 0 < vMax) (haMax : 0 < aMax) (hjMax : 0 < jMax) :
    ∃ l, estimateSegmentTimesBaca Real.sqrt vs vMax aMax jMax = some l ∧
      l.length = vs.length - 1 ∧
      ∀ i, i < vs.length - 1 →
        ∃ t, l[i]? = some t ∧
          distance Real.sqrt (positionAt vs i) (positionAt vs (i + 1)) / vMax
            - vMax / aMax ≤ t ∧
          ((i = 0 ∨ i = vs.length - 2 ∨
              distance Real.sqrt (positionAt vs i) (positionAt vs (i + 1))
                < vMax ^ 2 / aMax ∨
              1 ≤ entryCoefficient Real.sqrt vs i + exitCoefficient Real.sqrt vs i) →
            distance Real.sqrt (positionAt vs i) (positionAt vs (i + 1)) / vMax ≤ t) := by
  obtain ⟨l, hl, hlen, hget⟩ :=
    baca_some Real.sqrt hv.1 (positionAt_length hv) vMax aMax jMax
  refine ⟨l, hl, hlen, fun i hi => ?_⟩
  have hb := bacaSegmentTime_valid Real.sqrt (positionAt_length hv) vMax aMax jMax hvMax i
    (by omega)
  obtain ⟨he0, he1⟩ := entryCoefficient_mem_unit vs i
  obtain ⟨hx0, hx1⟩ := exitCoefficient_mem_unit vs i
  obtain ⟨hlow, hfull⟩ := bacaTime_ge (entryCoefficient Real.sqrt vs i)
    (exitCoefficient Real.sqrt vs i)
    (distance Real.sqrt (positionAt vs i) (positionAt vs (i + 1))) vMax aMax jMax
    he0 he1 hx0 hx1 (distance_nonneg _ _) hvMax haMax hjMax
  refine ⟨_, by rw [hget i hi, hb], hlow, fun hcase => hfull ?_⟩
  rcases hcase with h | h | h | h
  · right
    have : entryCoefficient Real.sqrt vs i = 1 := by simp [entryCoefficient, h]
    linarith
  · right
    have : exitCoefficient Real.sqrt vs i = 1 := by simp [exitCoefficient, h]
    linarith
  · exact Or.inl h
  · exact Or.inr h

/-- Witness for C22 as the code has it: the unit square with all limits `1`. -/
theorem estimateSegmentTimesBaca_travel_time_witness :
    ∃ l, estimateSegmentTimesBaca Real.sqrt (unitSquareVertices : List (Vertex ℝ)) 1 1 1
        = some l ∧
      l.length = (unitSquareVertices : List (Vertex ℝ)).length - 1 ∧
      ∀ i, i < (unitSquareVertices : List (Vertex ℝ)).length - 1 →
        ∃ t, l[i]? = some t ∧
          distance Real.sqrt (positionAt unitSquareVertices i)
              (positionAt unitSquareVertices (i + 1)) / 1 - 1 / 1 ≤ t ∧
          ((i = 0 ∨ i = (unitSquareVertices : List (Vertex ℝ)).length - 2 ∨
              distance Real.sqrt (positionAt unitSquareVertices i)
                (positionAt unitSquareVertices (i + 1)) < 1 ^ 2 / 1 ∨
              1 ≤ entryCoefficient Real.sqrt unitSquareVertices i
                + exitCoefficient Real.sqrt unitSquareVertices i) →
            distance Real.sqrt (positionAt unitSquareVertices i)
              (positionAt unitSquareVertices (i + 1)) / 1 ≤ t) :=
  estimateSegmentTimesBaca_travel_time 3 unitSquareVertices 1 1 1 unitSquareVertices_valid
    one_pos one_pos one_pos

theorem collinearVertices_valid : ValidVertices 1 (collinearVertices : List (Vertex K)) :=
  ⟨by simp [collinearVertices], by
    simp [collinearVertices, Vertex.getConstraint, List.lookup]⟩

/-- C22 refuted as stated: on the straight path `0, 4, 8, 12` with all limits `1` the
Baca estimator returns `[5, 3, 5]`; the interior segment has length `4` and gets the
duration `3`, less than `4 / vMax = 4`. -/
theorem baca_interior_segment_too_fast :
    ValidVertices 1 (collinearVertices : List (Vertex ℝ)) ∧
    estimateSegmentTimesBaca Real.sqrt (collinearVertices : List (Vertex ℝ)) 1 1 1
      = some [5, 3, 5] ∧
    distance Real.sqrt (positionAt (collinearVertices : List (Vertex ℝ)) 1)
      (positionAt (collinearVertices : List (Vertex ℝ)) 2) / 1 = 4 ∧
    (3 : ℝ) < 4 := by
  have hv : ValidVertices 1 (collinearVertices : List (Vertex ℝ)) := collinearVertices_valid
  have hq0 : positionAt (collinearVertices : List (Vertex ℝ)) 0 = [0] := by
    simp [positionAt, collinearVertices, Vertex.positionOrEmpty, Vertex.getConstraint,
      List.lookup]
  have hq1 : positionAt (collinearVertices : List (Vertex ℝ)) 1 = [4] := by
    simp [positionAt, collinearVertices, Vertex.positionOrEmpty, Vertex.getConstraint,
      List.lookup]
  have hq2 : positionAt (collinearVertices : List (Vertex ℝ)) 2 = [8] := by
    simp [positionAt, collinearVertices, Vertex.positionOrEmpty, Vertex.getConstraint,
      List.lookup]
  have hq3 : positionAt (collinearVertices : List (Vertex ℝ)) 3 = [12] := by
    simp [positionAt, collinearVertices, Vertex.positionOrEmpty, Vertex.getConstraint,
      List.lookup]
  have hd01 : distance Real.sqrt [(0 : ℝ)] [4] = 4 := by
    simp only [distance, List.zipWith_cons_cons, List.zipWith_nil_right, norm_single]
    norm_num
  have hd12 : distance Real.sqrt [(4 : ℝ)] [8] = 4 := by
    simp only [distance, List.zipWith_cons_cons, List.zipWith_nil_right, norm_single]
    norm_num
  have hd23 : distance Real.sqrt [(8 : ℝ)] [12] = 4 := by
    simp only [distance, List.zipWith_cons_cons, List.zipWith_nil_right, norm_single]
    norm_num
  have htc1 : turnCoefficient Real.sqrt [(0 : ℝ)] [4] [8] = 0 :=
    turnCoefficient_straight [0] [4] [8] 1 rfl (by simp) one_pos (by norm_num)
  have htc2 : turnCoefficient Real.sqrt [(4 : ℝ)] [8] [12] = 0 :=
    turnCoefficient_straight [4] [8] [12] 1 rfl (by simp) one_pos (by norm_num)
  have hs4 : Real.sqrt (4 / 1) = 2 := by
    rw [show (4 : ℝ) / 1 = 2 * 2 by norm_num]
    exact Real.sqrt_mul_self (by norm_num)
  have hcruise : bacaCruiseTime (4 : ℝ) 1 1 = 3 := by
    unfold bacaCruiseTime
    norm_num
  have hlen : (collinearVertices : List (Vertex ℝ)).length = 4 := rfl
  have hen0 : entryCoefficient Real.sqrt (collinearVertices : List (Vertex ℝ)) 0 = 1 := by
    simp [entryCoefficient]
  have hex0 : exitCoefficient Real.sqrt (collinearVertices : List (Vertex ℝ)) 0 = 0 := by
    simp [exitCoefficient, hlen, hq0, hq1, hq2, htc1]
  have hen1 : entryCoefficient Real.sqrt (collinearVertices : List (Vertex ℝ)) 1 = 0 := by
    simp [entryCoefficient, hq0, hq1, hq2, htc1]
  have hex1 : exitCoefficient Real.sqrt (collinearVertices : List (Vertex ℝ)) 1 = 0 := by
    simp [exitCoefficient, hlen, hq1, hq2, hq3, htc2]
  have hen2 : entryCoefficient Real.sqrt (collinearVertices : List (Vertex ℝ)) 2 = 0 := by
    simp [entryCoefficient, hq1, hq2, hq3, htc2]
  have hex2 : exitCoefficient Real.sqrt (collinearVertices : List (Vertex ℝ)) 2 = 1 := by
    simp [exitCoefficient, hlen]
  have hb0 := bacaSegmentTime_valid Real.sqrt (positionAt_length hv) 1 1 1 one_pos 0
    (by simp [hlen])
  have hb1 := bacaSegmentTime_valid Real.sqrt (positionAt_length hv) 1 1 1 one_pos 1
    (by simp [hlen])
  have hb2 := bacaSegmentTime_valid Real.sqrt (positionAt_length hv) 1 1 1 one_pos 2
    (by simp [hlen])
  simp only [zero_add, Nat.reduceAdd, hq0, hq1, hq2, hq3, hen0, hex0, hen1, hex1, hen2, hex2,
    hd01, hd12, hd23, bacaTime, hcruise, hs4] at hb0 hb1 hb2
  have ht0 : max (0.01 : ℝ) (3 + min (1 * (1 / 1 + 1 / 1)) 2 + min (0 * (1 / 1 + 1 / 1)) 2)
      = 5 := by
    norm_num
  have ht1 : max (0.01 : ℝ) (3 + min (0 * (1 / 1 + 1 / 1)) 2 + min (0 * (1 / 1 + 1 / 1)) 2)
      = 3 := by
    norm_num
  have ht2 : max (0.01 : ℝ) (3 + min (0 * (1 / 1 + 1 / 1)) 2 + min (1 * (1 / 1 + 1 / 1)) 2)
      = 5 := by
    norm_num
  rw [ht0] at hb0
  rw [ht1] at hb1
  rw [ht2] at hb2
  refine ⟨hv, ?_, ?_, by norm_num⟩
  · simp only [estimateSegmentTimesBaca, hlen, Nat.reduceLeDiff, if_true, Nat.add_one_sub_one,
      Nat.reduceSub, pushLoop, hb0, hb1, hb2, Option.bind_eq_bind, Option.some_bind,
      Option.pure_def, List.nil_append, List.cons_append]
  · rw [hq1, hq2, hd12]
    norm_num

/-! ## The square path -/

end MavTrajectoryGeneration
